import Mathlib

/-!
# Task list manager (`src/app.js`): embedding and verified properties

The in-memory task list, the operations of the page (add, toggle, delete,
edit, clear completed), the filter and sort pipeline, the counter text and
the persistence of the list as JSON text under the key `tasks` are embedded
as Lean functions.  DOM writes (the rendered rows, the modal, the input
boxes) are not part of the state: the values read from input elements are
arguments of the operations, and what would be painted is returned by pure
functions.
-/

namespace Todo

/-! ## Characters and strings -/

/-- The double quote character. -/
def dquote : Char := Char.ofNat 34

/-- The reverse solidus (escape) character. -/
def bslash : Char := Char.ofNat 92

/-- The opening brace. -/
def lbrace : Char := Char.ofNat 123

/-- The closing brace. -/
def rbrace : Char := Char.ofNat 125

/-- White space and line terminators removed by `String.prototype.trim`
(ECMAScript WhiteSpace and LineTerminator productions). -/
def isWhiteSpace (c : Char) : Bool :=
  let n := c.toNat
  n = 9 || n = 10 || n = 11 || n = 12 || n = 13 || n = 32 || n = 160 ||
  n = 5760 || (8192 ≤ n && n ≤ 8202) || n = 8232 || n = 8233 || n = 8239 ||
  n = 8287 || n = 12288 || n = 65279

/-- Removes leading white space. -/
def trimStart (cs : List Char) : List Char :=
  cs.dropWhile isWhiteSpace

/-- Removes trailing white space. -/
def trimEnd (cs : List Char) : List Char :=
  (cs.reverse.dropWhile isWhiteSpace).reverse

/-- The method `String.prototype.trim`. -/
def trim (s : String) : String :=
  String.mk (trimEnd (trimStart s.data))

/-! ## Dates -/

/-- Decimal digits of `n`, left padded with zeros to `width` characters. -/
def padDigits (width n : Nat) : List Char :=
  let ds := Nat.toDigits 10 n
  List.replicate (width - ds.length) (Char.ofNat 48) ++ ds

/-- Year, month and day of the civil date `days` days after 1970-01-01
(proleptic Gregorian calendar). -/
def civilFromDays (days : Int) : Int × Nat × Nat :=
  let z := days + 719468
  let era := z / 146097
  let doe := (z - era * 146097).toNat
  let yoe := (doe - doe / 1460 + doe / 36524 - doe / 146096) / 365
  let y : Int := (yoe : Int) + era * 400
  let doy := doe - (365 * yoe + yoe / 4 - yoe / 100)
  let mp := (5 * doy + 2) / 153
  let d := doy - (153 * mp + 2) / 5 + 1
  let m := if mp < 10 then mp + 3 else mp - 9
  (if m ≤ 2 then y + 1 else y, m, d)

/-- The method `Date.prototype.toISOString` of a date whose time value is
`t` milliseconds since the epoch: `YYYY-MM-DDTHH:mm:ss.sssZ`, with a signed
six digit year outside 0..9999. -/
def toISOString (t : Int) : String :=
  let days := t / 86400000
  let ms := (t % 86400000).toNat
  let (y, m, d) := civilFromDays days
  let year : List Char :=
    if 0 ≤ y ∧ y ≤ 9999 then padDigits 4 y.toNat
    else if y < 0 then '-' :: padDigits 6 (-y).toNat
    else '+' :: padDigits 6 y.toNat
  String.mk (year ++ '-' :: padDigits 2 m ++ '-' :: padDigits 2 d ++
    'T' :: padDigits 2 (ms / 3600000) ++ ':' :: padDigits 2 (ms / 60000 % 60) ++
    ':' :: padDigits 2 (ms / 1000 % 60) ++ '.' :: padDigits 3 (ms % 1000) ++ ['Z'])

/-- The value held by the `date` property of a task: the `Date` object
made by `new Date()` in `addTask`, or the string that `JSON.parse` leaves
there after a reload. -/
inductive DateValue where
  | object (t : Int)
  | string (s : String)
deriving DecidableEq, Repr

/-! ## Tasks and JavaScript values -/

/-- A task record, with the properties in the order `addTask` creates
them. -/
structure Task where
  id : String
  text : String
  completed : Bool
  priority : String
  date : DateValue
deriving DecidableEq, Repr

/-- JavaScript values that occur in the persisted data.  A number is carried
by its source text; no arithmetic on parsed numbers is modelled.  The
properties of an object are listed in creation order; the special place of
array index keys in that order is not modelled. -/
inductive JSValue where
  | null
  | bool (b : Bool)
  | num (lexeme : String)
  | str (s : String)
  | date (t : Int)
  | arr (items : List JSValue)
  | obj (props : List (String × JSValue))

/-- A `DateValue` as a JavaScript value. -/
def DateValue.toJS : DateValue → JSValue
  | .object t => .date t
  | .string s => .str s

/-- A task record as a JavaScript object. -/
def Task.toJS (t : Task) : JSValue :=
  .obj [("id", .str t.id), ("text", .str t.text), ("completed", .bool t.completed),
    ("priority", .str t.priority), ("date", t.date.toJS)]

/-- The task array as a JavaScript value. -/
def tasksToJS (tasks : List Task) : JSValue :=
  .arr (tasks.map Task.toJS)

/-! ## `JSON.stringify` -/

/-- Escape of one character inside a JSON string (QuoteJSONString). -/
def quoteChar (c : Char) : List Char :=
  if c = dquote then [bslash, dquote]
  else if c = bslash then [bslash, bslash]
  else if c = Char.ofNat 8 then [bslash, 'b']
  else if c = Char.ofNat 12 then [bslash, 'f']
  else if c = Char.ofNat 10 then [bslash, 'n']
  else if c = Char.ofNat 13 then [bslash, 'r']
  else if c = Char.ofNat 9 then [bslash, 't']
  else if c.toNat < 32 then
    [bslash, 'u', '0', '0', Nat.digitChar (c.toNat / 16), Nat.digitChar (c.toNat % 16)]
  else [c]

/-- Body of a quoted JSON string. -/
def quoteBody (cs : List Char) : List Char :=
  cs.flatMap quoteChar

/-- The abstract operation QuoteJSONString. -/
def quoteJSONString (s : String) : List Char :=
  dquote :: (quoteBody s.data ++ [dquote])

mutual
/-- Serialization of a value (SerializeJSONProperty without indentation);
a `Date` is serialized through `toJSON`, that is `toISOString`. -/
def stringifyValue : JSValue → List Char
  | .null => ['n', 'u', 'l', 'l']
  | .bool b => if b then ['t', 'r', 'u', 'e'] else ['f', 'a', 'l', 's', 'e']
  | .num l => l.data
  | .str s => quoteJSONString s
  | .date t => quoteJSONString (toISOString t)
  | .arr items => '[' :: (stringifyItems items ++ [']'])
  | .obj props => lbrace :: (stringifyProps props ++ [rbrace])
/-- Serialization of array elements, comma separated. -/
def stringifyItems : List JSValue → List Char
  | [] => []
  | [x] => stringifyValue x
  | x :: y :: rest => stringifyValue x ++ ',' :: stringifyItems (y :: rest)
/-- Serialization of object properties, comma separated. -/
def stringifyProps : List (String × JSValue) → List Char
  | [] => []
  | [(k, v)] => quoteJSONString k ++ ':' :: stringifyValue v
  | (k, v) :: p :: rest =>
    quoteJSONString k ++ ':' :: (stringifyValue v ++ ',' :: stringifyProps (p :: rest))
end

/-- The function `JSON.stringify` at one argument. -/
def JSONstringify (v : JSValue) : String :=
  String.mk (stringifyValue v)

/-! ## `JSON.parse` -/

/-- The exception of `JSON.parse`: it throws a `SyntaxError` and nothing
else. -/
inductive JSError where
  | syntaxError
deriving DecidableEq, Repr

/-- JSON white space. -/
def isJSONWhiteSpace (c : Char) : Bool :=
  c = Char.ofNat 32 || c = Char.ofNat 9 || c = Char.ofNat 10 || c = Char.ofNat 13

/-- Skips JSON white space. -/
def skipWS : List Char → List Char
  | [] => []
  | c :: cs => if isJSONWhiteSpace c then skipWS cs else c :: cs

/-- Value of a hexadecimal digit. -/
def hexValue (c : Char) : Option Nat :=
  let n := c.toNat
  if 48 ≤ n ∧ n ≤ 57 then some (n - 48)
  else if 97 ≤ n ∧ n ≤ 102 then some (n - 87)
  else if 65 ≤ n ∧ n ≤ 70 then some (n - 55)
  else none

/-- Value of four hexadecimal digits. -/
def hex4 (a b c d : Char) : Option Nat :=
  match hexValue a, hexValue b, hexValue c, hexValue d with
  | some x, some y, some z, some w => some (((x * 16 + y) * 16 + z) * 16 + w)
  | _, _, _, _ => none

/-- The character of a UTF-16 code unit read from a `\u` escape.  Strings
are sequences of Unicode scalar values here, so a surrogate half that is not
part of a pair is represented by U+FFFD. -/
def charOfUnit (n : Nat) : Char :=
  if 55296 ≤ n ∧ n < 57344 then Char.ofNat 65533 else Char.ofNat n

/-- The character denoted by an escape sequence, read after the reverse
solidus, and the remaining input.  Two `\u` escapes that form a surrogate
pair denote one character. -/
def parseEscape : List Char → Option (Char × List Char)
  | [] => none
  | e :: rest =>
    if e = dquote then some (dquote, rest)
    else if e = bslash then some (bslash, rest)
    else if e = '/' then some ('/', rest)
    else if e = 'b' then some (Char.ofNat 8, rest)
    else if e = 'f' then some (Char.ofNat 12, rest)
    else if e = 'n' then some (Char.ofNat 10, rest)
    else if e = 'r' then some (Char.ofNat 13, rest)
    else if e = 't' then some (Char.ofNat 9, rest)
    else if e = 'u' then
      match rest with
      | a :: b :: c1 :: d :: rest1 =>
        match hex4 a b c1 d with
        | none => none
        | some hi =>
          match rest1 with
          | s :: u :: a2 :: b2 :: c2 :: d2 :: rest2 =>
            match hex4 a2 b2 c2 d2 with
            | some lo =>
              if s = bslash ∧ u = 'u' ∧ 55296 ≤ hi ∧ hi < 56320 ∧ 56320 ≤ lo ∧ lo < 57344 then
                some (Char.ofNat (65536 + (hi - 55296) * 1024 + (lo - 56320)), rest2)
              else some (charOfUnit hi, rest1)
            | none => some (charOfUnit hi, rest1)
          | _ => some (charOfUnit hi, rest1)
      | _ => none
    else none

/-- Characters of a JSON string after its opening quote, up to and including
the closing quote.  Returns the decoded characters and the remaining input.
`fuel` bounds the number of steps; each step consumes input. -/
def parseChars : Nat → List Char → List Char → Option (List Char × List Char)
  | 0, _, _ => none
  | _ + 1, [], _ => none
  | fuel + 1, c :: cs, acc =>
    if c = dquote then some (acc.reverse, cs)
    else if c = bslash then
      match parseEscape cs with
      | none => none
      | some (d, rest) => parseChars fuel rest (d :: acc)
    else if c.toNat < 32 then none
    else parseChars fuel cs (c :: acc)

/-- A JSON string after its opening quote. -/
def parseString (cs : List Char) : Option (String × List Char) :=
  match parseChars (cs.length + 1) cs [] with
  | some (s, rest) => some (String.mk s, rest)
  | none => none

/-- Splits off the longest run of decimal digits. -/
def takeDigits : List Char → List Char × List Char
  | [] => ([], [])
  | c :: cs =>
    if c.isDigit then
      let (ds, rest) := takeDigits cs
      (c :: ds, rest)
    else ([], c :: cs)

/-- The optional minus sign of a JSON number. -/
def numberSign : List Char → List Char × List Char
  | [] => ([], [])
  | c :: r => if c = '-' then ([c], r) else ([], c :: r)

/-- The integer part of a JSON number: `0`, or a digit other than zero
followed by digits. -/
def numberInt : List Char → Option (List Char × List Char)
  | [] => none
  | c :: r =>
    if c = '0' then some ([c], r)
    else if c.isDigit then some (c :: (takeDigits r).1, (takeDigits r).2)
    else none

/-- The optional fraction of a JSON number: a point and at least one
digit. -/
def numberFrac : List Char → Option (List Char × List Char)
  | [] => some ([], [])
  | c :: r =>
    if c = '.' then
      if (takeDigits r).1 = [] then none
      else some (c :: (takeDigits r).1, (takeDigits r).2)
    else some ([], c :: r)

/-- The optional sign of an exponent. -/
def exponentSign : List Char → List Char × List Char
  | [] => ([], [])
  | c :: r => if c = '+' ∨ c = '-' then ([c], r) else ([], c :: r)

/-- The optional exponent of a JSON number: `e` or `E`, an optional sign
and at least one digit. -/
def numberExp : List Char → Option (List Char × List Char)
  | [] => some ([], [])
  | c :: r =>
    if c = 'e' ∨ c = 'E' then
      if (takeDigits (exponentSign r).2).1 = [] then none
      else some (c :: ((exponentSign r).1 ++ (takeDigits (exponentSign r).2).1),
        (takeDigits (exponentSign r).2).2)
    else some ([], c :: r)

/-- A JSON number: optional minus, integer part without leading zero,
optional fraction, optional exponent.  Returns its text and the rest. -/
def parseNumber (cs : List Char) : Option (List Char × List Char) :=
  match numberInt (numberSign cs).2 with
  | none => none
  | some (ip, r1) =>
    match numberFrac r1 with
    | none => none
    | some (fp, r2) =>
      match numberExp r2 with
      | none => none
      | some (ep, r3) => some ((numberSign cs).1 ++ ip ++ fp ++ ep, r3)

/-- Removes the literal `lit` from the front of the input. -/
def dropLiteral : List Char → List Char → Option (List Char)
  | [], cs => some cs
  | _ :: _, [] => none
  | l :: ls, c :: cs => if l = c then dropLiteral ls cs else none

/-- Defines property `k` of an object under construction: a repeated key
overwrites the earlier value in place, a new key is added at the end. -/
def setProp (k : String) (v : JSValue) : List (String × JSValue) → List (String × JSValue)
  | [] => [(k, v)]
  | (k1, v1) :: ps => if k1 = k then (k, v) :: ps else (k1, v1) :: setProp k v ps

/-- A JSON value that is not an array or an object, with first character
`c`: a string, one of the three literals, or a number; white space after it
is skipped. -/
def parseScalar (c : Char) (rest : List Char) : Option (JSValue × List Char) :=
  if c = dquote then
    match parseString rest with
    | some (s, r) => some (.str s, skipWS r)
    | none => none
  else if c = 't' then
    match dropLiteral ['r', 'u', 'e'] rest with
    | some r => some (.bool true, skipWS r)
    | none => none
  else if c = 'f' then
    match dropLiteral ['a', 'l', 's', 'e'] rest with
    | some r => some (.bool false, skipWS r)
    | none => none
  else if c = 'n' then
    match dropLiteral ['u', 'l', 'l'] rest with
    | some r => some (.null, skipWS r)
    | none => none
  else
    match parseNumber (c :: rest) with
    | some (l, r) => some (.num (String.mk l), skipWS r)
    | none => none

mutual
/-- A JSON value with surrounding white space.  `fuel` bounds the nesting
of calls. -/
def parseValue : Nat → List Char → Option (JSValue × List Char)
  | 0, _ => none
  | fuel + 1, cs =>
    match skipWS cs with
    | [] => none
    | c :: rest =>
      if c = lbrace then
        match skipWS rest with
        | c1 :: rest1 =>
          if c1 = rbrace then some (.obj [], skipWS rest1)
          else
            match parseMembers fuel (c1 :: rest1) [] with
            | some (ps, r) => some (.obj ps, skipWS r)
            | none => none
        | [] => none
      else if c = '[' then
        match skipWS rest with
        | c1 :: rest1 =>
          if c1 = ']' then some (.arr [], skipWS rest1)
          else
            match parseElements fuel (c1 :: rest1) [] with
            | some (xs, r) => some (.arr xs, skipWS r)
            | none => none
        | [] => none
      else parseScalar c rest
/-- Elements of a non-empty array up to and including the closing
bracket. -/
def parseElements : Nat → List Char → List JSValue → Option (List JSValue × List Char)
  | 0, _, _ => none
  | fuel + 1, cs, acc =>
    match parseValue fuel cs with
    | none => none
    | some (v, r) =>
      match r with
      | [] => none
      | c :: r1 =>
        if c = ',' then parseElements fuel r1 (acc ++ [v])
        else if c = ']' then some (acc ++ [v], r1)
        else none
/-- Members of a non-empty object up to and including the closing
brace. -/
def parseMembers : Nat → List Char → List (String × JSValue) →
    Option (List (String × JSValue) × List Char)
  | 0, _, _ => none
  | fuel + 1, cs, acc =>
    match skipWS cs with
    | [] => none
    | q :: r0 =>
      if q = dquote then
        match parseString r0 with
        | none => none
        | some (k, r1) =>
          match skipWS r1 with
          | [] => none
          | c :: r2 =>
            if c = ':' then
              match parseValue fuel r2 with
              | none => none
              | some (v, r3) =>
                match r3 with
                | [] => none
                | d :: r4 =>
                  if d = ',' then parseMembers fuel r4 (setProp k v acc)
                  else if d = rbrace then some (setProp k v acc, r4)
                  else none
            else none
      else none
end

/-- The function `JSON.parse` at one argument: the whole text must be one
JSON value; anything else throws a `SyntaxError`.  Every call of the parser
consumes input or follows a call that did, so the fuel given here is never
exhausted (`JSONparse_complete`). -/
def JSONparse (text : String) : Except JSError JSValue :=
  match parseValue (2 * text.data.length + 2) text.data with
  | some (v, []) => .ok v
  | _ => .error .syntaxError

/-! ## Application state and task operations -/

/-- The global variables of the page together with the `localStorage` item
`tasks` and the number of `localStorage.setItem` calls made so far. -/
structure AppState where
  tasks : List Task
  currentFilter : String
  currentSort : String
  editingTaskId : Option String
  storedTasks : Option String
  setItemCalls : Nat
deriving DecidableEq

/-- The state when the script is loaded, before `initApp`, with `stored`
the content of the `localStorage` item. -/
def initialState (stored : Option String) : AppState :=
  { tasks := [], currentFilter := "all", currentSort := "date-added",
    editingTaskId := none, storedTasks := stored, setItemCalls := 0 }

/-- The function `saveTasksToLocalStorage`. -/
def saveTasksToLocalStorage (st : AppState) : AppState :=
  { st with storedTasks := some (JSONstringify (tasksToJS st.tasks)),
            setItemCalls := st.setItemCalls + 1 }

/-- The function `addTask`.  `taskInputValue` and `prioritySelectValue` are
the values of the two input elements, `now` is the reading `Date.now()` and
`created` the time value of `new Date()`. -/
def addTask (st : AppState) (taskInputValue prioritySelectValue : String)
    (now created : Nat) : AppState :=
  let taskText := trim taskInputValue
  if taskText = "" then st
  else
    let newTask : Task :=
      { id := toString now, text := taskText, completed := false,
        priority := prioritySelectValue, date := .object created }
    saveTasksToLocalStorage { st with tasks := st.tasks ++ [newTask] }

/-- The function `toggleTaskCompletion`. -/
def toggleTaskCompletion (st : AppState) (taskId : String) : AppState :=
  saveTasksToLocalStorage
    { st with tasks := st.tasks.map fun task =>
        if task.id = taskId then { task with completed := !task.completed } else task }

/-- The function `deleteTask`. -/
def deleteTask (st : AppState) (taskId : String) : AppState :=
  saveTasksToLocalStorage
    { st with tasks := st.tasks.filter fun task => task.id != taskId }

/-- The function `editTask`: opens the edit session for an existing task. -/
def editTask (st : AppState) (taskId : String) : AppState :=
  match st.tasks.find? fun task => task.id = taskId with
  | none => st
  | some _ => { st with editingTaskId := some taskId }

/-- The function `closeEditModal`. -/
def closeEditModal (st : AppState) : AppState :=
  { st with editingTaskId := none }

/-- The function `saveTaskEdit`.  The guard `!editingTaskId` holds for
`null` and for the empty string. -/
def saveTaskEdit (st : AppState) (editInputValue editPriorityValue : String) : AppState :=
  match st.editingTaskId with
  | none => st
  | some editingTaskId =>
    if editingTaskId = "" then st
    else
      let editedText := trim editInputValue
      if editedText = "" then st
      else
        closeEditModal (saveTasksToLocalStorage
          { st with tasks := st.tasks.map fun task =>
              if task.id = editingTaskId then
                { task with text := editedText, priority := editPriorityValue }
              else task })

/-- The function `clearCompletedTasks`. -/
def clearCompletedTasks (st : AppState) : AppState :=
  saveTasksToLocalStorage { st with tasks := st.tasks.filter fun task => !task.completed }

/-- The function `setFilter`. -/
def setFilter (st : AppState) (filter : String) : AppState :=
  { st with currentFilter := filter }

/-- The function `setSort`. -/
def setSort (st : AppState) (sort : String) : AppState :=
  { st with currentSort := sort }

/-- A user event reaching one of the listeners installed by `initApp`, with
the values read from the page and from the clock at that moment. -/
inductive Op where
  | add (taskInputValue prioritySelectValue : String) (now created : Nat)
  | toggle (taskId : String)
  | delete (taskId : String)
  | edit (taskId : String)
  | saveEdit (editInputValue editPriorityValue : String)
  | closeModal
  | clearCompleted
  | setFilter (filter : String)
  | setSort (sort : String)
deriving DecidableEq

/-- The listener run for an event. -/
def dispatch (st : AppState) : Op → AppState
  | .add v p now created => addTask st v p now created
  | .toggle taskId => toggleTaskCompletion st taskId
  | .delete taskId => deleteTask st taskId
  | .edit taskId => editTask st taskId
  | .saveEdit v p => saveTaskEdit st v p
  | .closeModal => closeEditModal st
  | .clearCompleted => clearCompletedTasks st
  | .setFilter f => setFilter st f
  | .setSort s => setSort st s

/-- Events are handled one after the other, in order. -/
def run (st : AppState) (ops : List Op) : AppState :=
  ops.foldl dispatch st

/-- The readings of `Date.now()` taken in a sequence of events: `addTask`
reads the clock when the trimmed input is not empty. -/
def addClocks : List Op → List Nat
  | [] => []
  | .add taskInputValue _ now _ :: ops =>
    if trim taskInputValue = "" then addClocks ops else now :: addClocks ops
  | _ :: ops => addClocks ops

/-! ## Filtering and sorting -/

/-- The function `getFilteredTasks`. -/
def getFilteredTasks (tasks : List Task) (currentFilter : String) : List Task :=
  tasks.filter fun task =>
    if currentFilter = "all" then true
    else if currentFilter = "active" then !task.completed
    else if currentFilter = "completed" then task.completed
    else true

/-- Built-in functions of the host whose results depend on the locale or on
the implementation: `String.prototype.localeCompare` and `Date.parse` (with
`none` for `NaN`). -/
structure Platform where
  localeCompare : String → String → Int
  dateParse : String → Option Int

/-- The time value of `new Date(d)`, `none` for `NaN`. -/
def timeValue (P : Platform) : DateValue → Option Int
  | .object t => some t
  | .string s => P.dateParse s

/-- Subtraction of numbers, `none` for `NaN`. -/
def numSub : Option Int → Option Int → Option Int
  | some x, some y => some (x - y)
  | _, _ => none

/-- The lookup `priorityOrder[p]` as a number: a key outside the table gives
a value whose difference with anything is `NaN`. -/
def priorityOrder (p : String) : Option Int :=
  if p = "high" then some 0
  else if p = "medium" then some 1
  else if p = "low" then some 2
  else none

/-- The comparator passed to `sort` in `getSortedTasks`. -/
def compareFn (P : Platform) (currentSort : String) (a b : Task) : Option Int :=
  if currentSort = "date-added" then numSub (timeValue P b.date) (timeValue P a.date)
  else if currentSort = "alphabetical" then some (P.localeCompare a.text b.text)
  else if currentSort = "priority" then
    numSub (priorityOrder a.priority) (priorityOrder b.priority)
  else some 0

/-- The abstract operation SortCompare on a comparator result: `NaN` counts
as `+0`. -/
def sortCompare (v : Option Int) : Int :=
  v.getD 0

/-- The method `Array.prototype.sort` with a comparator, as a stable
insertion sort: an element stays before the later elements that the
comparator does not put strictly before it.  This is the list that every
implementation returns when the comparator is consistent for the elements
(`sortResult_unique`); for another comparator the language leaves the order
to the implementation, see `SortResult`. -/
def arraySort {α : Type} (comparefn : α → α → Option Int) (xs : List α) : List α :=
  xs.insertionSort fun a b => sortCompare (comparefn a b) ≤ 0

/-- The function `getSortedTasks`. -/
def getSortedTasks (P : Platform) (currentSort : String) (filteredTasks : List Task) :
    List Task :=
  arraySort (compareFn P currentSort) filteredTasks

/-- A consistent comparison function for the elements of `xs`, as
ECMAScript defines it: the result is never `NaN`, every element compares
equal to itself, comparing equal is symmetric and transitive, and so are
comparing less and comparing greater. -/
def ConsistentOn {α : Type} (comparefn : α → α → Option Int) (xs : List α) : Prop :=
  ∀ a ∈ xs, ∀ b ∈ xs, ∀ c ∈ xs,
    (comparefn a b).isSome = true ∧
    sortCompare (comparefn a a) = 0 ∧
    (sortCompare (comparefn a b) = 0 → sortCompare (comparefn b a) = 0) ∧
    (sortCompare (comparefn a b) = 0 → sortCompare (comparefn b c) = 0 →
      sortCompare (comparefn a c) = 0) ∧
    (sortCompare (comparefn a b) < 0 → sortCompare (comparefn b c) < 0 →
      sortCompare (comparefn a c) < 0) ∧
    (0 < sortCompare (comparefn a b) → 0 < sortCompare (comparefn b c) →
      0 < sortCompare (comparefn a c))

instance instDecidableConsistentOn {α : Type} (comparefn : α → α → Option Int)
    (xs : List α) : Decidable (ConsistentOn comparefn xs) := by
  unfold ConsistentOn
  infer_instance

/-- The lists that `Array.prototype.sort` may return for the elements `xs`
(ECMAScript): always a permutation of `xs`; when the comparator is
consistent for `xs`, the list is ordered by it and elements that compare
equal stay in their input order; when it is not, the order is
implementation-defined. -/
def SortResult {α : Type} (comparefn : α → α → Option Int) (xs out : List α) : Prop :=
  out.Perm xs ∧
    (ConsistentOn comparefn xs →
      out.Pairwise (fun a b => sortCompare (comparefn a b) ≤ 0) ∧
      ∀ x ∈ xs, out.filter (fun y => decide (sortCompare (comparefn x y) = 0)) =
        xs.filter (fun y => decide (sortCompare (comparefn x y) = 0)))

/-- A host whose collation is code point order and whose `Date.parse`
accepts no string; used to run examples. -/
def codePointPlatform : Platform :=
  { localeCompare := fun a b => if a < b then -1 else if a = b then 0 else 1,
    dateParse := fun _ => none }

/-! ## Counter -/

/-- The text that `updateTasksCounter` writes into the counter element. -/
def updateTasksCounter (tasks : List Task) : String :=
  let activeTasks := (tasks.filter fun task => !task.completed).length
  toString activeTasks ++ " task" ++ (if activeTasks ≠ 1 then "s" else "") ++ " left"

/-! ## Loading at start-up -/

/-- The function `loadTasksFromLocalStorage`: the value of the variable
`tasks` after the call, given its value before.  An absent item and the
empty string are falsy and leave `tasks` alone; otherwise `tasks` becomes
whatever `JSON.parse` returns, and an exception of `JSON.parse` is not
caught. -/
def loadTasksFromLocalStorage (storedTasks : Option String) (tasks : JSValue) :
    Except JSError JSValue :=
  match storedTasks with
  | none => .ok tasks
  | some text => if text = "" then .ok tasks else JSONparse text

/-! ## Start-up on an arbitrary stored value

After the load the variable `tasks` holds whatever `JSON.parse` returned, so
`renderTasks` and `updateTasksCounter` run on an arbitrary value.  The page
is assumed to be the intended one: the elements and the row template that
the script looks up exist. -/

/-- ASCII white space, which `DOMTokenList.add` refuses inside a token. -/
def isASCIIWhitespace (c : Char) : Bool :=
  let n := c.toNat
  n = 9 || n = 10 || n = 12 || n = 13 || n = 32

/-- The property `k` of a value other than `null`, for the names that the
page reads (`id`, `text`, `completed`, `priority`, `date`): the own property
of an object, and `none`, that is `undefined`, otherwise, since no prototype
defines these names. -/
def getProp (v : JSValue) (k : String) : Option JSValue :=
  match v with
  | .obj props => (props.find? fun p => p.1 = k).map fun p => p.2
  | _ => none

mutual
/-- Whether the conversion of a value to a string or to a primitive throws a
`TypeError`.  A parsed object inherits `toString`, which returns
`[object Object]`, unless it has an own property `toString`: that one is not
callable, the inherited `valueOf` returns the object itself, and the
conversion throws.  An array is joined from the strings of its elements
(`null` gives the empty string). -/
def toStringThrows : JSValue → Bool
  | .obj props => props.any fun p => p.1 = "toString"
  | .arr items => anyToStringThrows items
  | _ => false
/-- Whether the string conversion of one of the elements throws. -/
def anyToStringThrows : List JSValue → Bool
  | [] => false
  | x :: xs => toStringThrows x || anyToStringThrows xs
end

mutual
/-- Whether the string of a value, when its conversion does not throw,
contains ASCII white space: `[object Object]` does, the text of a number, a
boolean or `null` does not, an array is joined with commas. -/
def toStringHasWhitespace : JSValue → Bool
  | .str s => s.data.any isASCIIWhitespace
  | .obj _ => true
  | .date _ => true
  | .arr items => anyHasWhitespace items
  | _ => false
/-- Whether the string of one of the elements contains ASCII white space. -/
def anyHasWhitespace : List JSValue → Bool
  | [] => false
  | x :: xs => toStringHasWhitespace x || anyHasWhitespace xs
end

/-- Whether the string conversion of a property value throws; `undefined`
converts to `undefined`. -/
def propThrows (v : Option JSValue) : Bool :=
  match v with
  | none => false
  | some x => toStringThrows x

/-- Whether `createTaskElement(task)` throws.  Reading `task.id` of `null`
is a `TypeError`; `dataset.id`, `textContent` and the template literal
convert `task.id`, `task.text` and `task.priority` to strings;
`classList.add` throws an `InvalidCharacterError` when the class name
contains ASCII white space; `formatDate` converts `task.date` with
`new Date`, and an invalid date is formatted without exception. -/
def createTaskElementThrows (task : JSValue) : Bool :=
  match task with
  | .null => true
  | _ =>
    propThrows (getProp task "id") || propThrows (getProp task "text") ||
    propThrows (getProp task "priority") ||
    (match getProp task "priority" with
      | none => false
      | some priority => toStringHasWhitespace priority) ||
    propThrows (getProp task "date")

/-- Whether `renderTasks` throws when called by `initApp`, with
`currentFilter` equal to `all` and `currentSort` to `date-added`.
`tasks.filter` is a `TypeError` unless `tasks` is an array; the filter
callback returns `true` without reading the element; the comparator reads
`a.date` and `b.date` and converts them with `new Date`, which throws only
where `createTaskElement` throws too; then a row is built for every
element, in some order. -/
def renderTasksThrows (tasks : JSValue) : Bool :=
  match tasks with
  | .arr items => items.any createTaskElementThrows
  | _ => true

/-- Whether `updateTasksCounter` throws: `tasks.filter` needs an array and
the callback reads `task.completed`, a `TypeError` on `null`. -/
def updateTasksCounterThrows (tasks : JSValue) : Bool :=
  match tasks with
  | .arr items => items.any fun task =>
      match task with
      | .null => true
      | _ => false
  | _ => true

/-- The statement of `initApp` out of which an exception came. -/
inductive Uncaught where
  | inLoad (e : JSError)
  | inRender
  | inCounter
deriving DecidableEq, Repr

/-- The page after `initApp`: the value of `tasks`, which of its steps were
completed, and the exception that ended it, if any.  The script has no
`try` statement, so an exception leaves `initApp` and the statements after
it are not run. -/
structure StartUp where
  tasks : JSValue
  rendered : Bool
  counterUpdated : Bool
  listenersInstalled : Bool
  uncaught : Option Uncaught

/-- The function `initApp`: load, render, update the counter, install the
listeners. -/
def initApp (storedTasks : Option String) : StartUp :=
  match loadTasksFromLocalStorage storedTasks (.arr []) with
  | .error e =>
    { tasks := .arr [], rendered := false, counterUpdated := false,
      listenersInstalled := false, uncaught := some (.inLoad e) }
  | .ok tasks =>
    if renderTasksThrows tasks then
      { tasks := tasks, rendered := false, counterUpdated := false,
        listenersInstalled := false, uncaught := some .inRender }
    else if updateTasksCounterThrows tasks then
      { tasks := tasks, rendered := true, counterUpdated := false,
        listenersInstalled := false, uncaught := some .inCounter }
    else
      { tasks := tasks, rendered := true, counterUpdated := true,
        listenersInstalled := true, uncaught := none }

/-! ## Auxiliary definitions for the proofs -/

/-- The number denoted by a list of decimal digit characters. -/
def digitsValue (cs : List Char) : Nat :=
  cs.foldl (fun acc c => acc * 10 + (c.toNat - 48)) 0

/-- The state after two additions made within the same millisecond. -/
def sameClockState : AppState :=
  run (initialState none) [.add "a" "low" 5 5, .add "b" "low" 5 5]

/-- The state of the scenario: two tasks added at distinct instants. -/
def milkState : AppState :=
  run (initialState none) [.add "Buy milk" "high" 1000 1000, .add "Call mom" "low" 1001 1001]

/-- The rank of a task in the priority table, 0 for a priority outside the
table. -/
def rankOf (t : Task) : Int :=
  (priorityOrder t.priority).getD 0

/-- The task named `name` with the given priority, as `addTask` makes it at
clock reading `now`. -/
def mkTask (name priority : String) (now : Nat) : Task :=
  { id := toString now, text := name, completed := false, priority := priority,
    date := .object now }

/-- The `date` property after `JSON.stringify` and `JSON.parse`: a `Date`
object has become its ISO string, a string is unchanged. -/
def DateValue.reloaded : DateValue → DateValue
  | .object t => .string (toISOString t)
  | .string s => .string s

/-- A task after `JSON.stringify` and `JSON.parse`. -/
def Task.reloaded (t : Task) : Task :=
  { t with date := t.date.reloaded }

/-- The state after one task was added to the empty list. -/
def oneTaskState : AppState :=
  addTask (initialState none) "X" "low" 1 1

/-- A state as it is after a reload: the date of the task is a string. -/
def reloadedState : AppState :=
  { initialState none with
    tasks := [{ id := "1", text := "X", completed := false, priority := "low",
                date := .string "1970-01-01T00:00:00.001Z" }] }

/-- Four tasks, the third with a priority outside the table. -/
def urgentTasks : List Task :=
  [mkTask "a" "low" 0, mkTask "b" "medium" 1, mkTask "c" "urgent" 2, mkTask "d" "high" 3]

/-- The order in which a sort by binary insertion leaves `urgentTasks` in
priority mode. -/
def urgentTasksSorted : List Task :=
  [mkTask "d" "high" 3, mkTask "b" "medium" 1, mkTask "a" "low" 0, mkTask "c" "urgent" 2]

/-- Eight tasks, the fifth with a priority outside the table, the sixth and
the last both `high`. -/
def nanTasks : List Task :=
  [mkTask "m1" "medium" 0, mkTask "m2" "medium" 1, mkTask "m3" "medium" 2,
    mkTask "m4" "medium" 3, mkTask "u" "urgent" 4, mkTask "h1" "high" 5,
    mkTask "l" "low" 6, mkTask "h2" "high" 7]

/-- The order in which a sort by binary insertion leaves `nanTasks` in
priority mode: the first seven tasks form a run, and the search for the
place of the last one starts at `m4` and ends at the front. -/
def nanTasksSorted : List Task :=
  [mkTask "h2" "high" 7, mkTask "m1" "medium" 0, mkTask "m2" "medium" 1,
    mkTask "m3" "medium" 2, mkTask "m4" "medium" 3, mkTask "u" "urgent" 4,
    mkTask "h1" "high" 5, mkTask "l" "low" 6]

/-- A stored text cut off in the middle of the first record. -/
def truncatedText : String :=
  String.mk ['[', lbrace, dquote, 'i', 'd', dquote, ':', dquote, '1', dquote]

/-! # Theorems -/

/-! ## Decimal rendering of clock readings -/

theorem digitChar_value (k : Nat) (hk : k < 10) : (Nat.digitChar k).toNat - 48 = k := by
  interval_cases k <;> rfl

theorem toDigitsCore_value (fuel : Nat) : ∀ (n : Nat) (ds : List Char), n < fuel →
    (Nat.toDigitsCore 10 fuel n ds).foldl (fun acc c => acc * 10 + (c.toNat - 48)) 0
      = ds.foldl (fun acc c => acc * 10 + (c.toNat - 48)) n := by
  induction fuel with
  | zero => intro n ds h; omega
  | succ fuel ih =>
    intro n ds h
    unfold Nat.toDigitsCore
    by_cases h0 : n / 10 = 0
    · simp only [h0, if_true, List.foldl_cons]
      rw [digitChar_value _ (Nat.mod_lt _ (by decide))]
      have : n % 10 = n := Nat.mod_eq_of_lt (by omega)
      simp [this]
    · simp only [h0, if_false]
      rw [ih (n / 10) _ (by omega), List.foldl_cons,
        digitChar_value _ (Nat.mod_lt _ (by decide))]
      congr 1
      omega

theorem digitsValue_toString (n : Nat) : digitsValue (toString n).data = n := by
  show digitsValue (Nat.toDigits 10 n) = n
  unfold digitsValue Nat.toDigits
  rw [toDigitsCore_value (n + 1) n [] (by omega)]
  rfl

theorem toString_nat_inj {n m : Nat} (h : toString n = toString m) : n = m := by
  have := congrArg (fun s => digitsValue s.data) h
  simpa [digitsValue_toString] using this

/-! ## Identifiers -/

theorem saveTasksToLocalStorage_tasks (st : AppState) :
    (saveTasksToLocalStorage st).tasks = st.tasks := rfl

theorem addClocks_sublist_cons (op : Op) (ops : List Op) :
    (addClocks ops).Sublist (addClocks (op :: ops)) := by
  cases op with
  | add v p now created =>
    simp only [addClocks]
    split
    · exact List.Sublist.refl _
    · exact List.sublist_cons_self _ _
  | _ => simp [addClocks]

theorem addClocks_cons_of_single (op : Op) (ops : List Op) (now : Nat)
    (h : addClocks [op] = [now]) : addClocks (op :: ops) = now :: addClocks ops := by
  cases op with
  | add v p n created =>
    simp only [addClocks] at h ⊢
    split at h
    · cases h
    · rename_i hv
      rw [if_neg hv]
      simp only [List.cons.injEq, and_true] at h
      rw [h]
  | _ => simp [addClocks] at h

/-- An event either appends one task whose id is the rendering of its clock
reading, or leaves a sublist of the ids that were there. -/
theorem dispatch_ids (st : AppState) (op : Op) :
    (∃ now, addClocks [op] = [now] ∧
        (dispatch st op).tasks.map Task.id = st.tasks.map Task.id ++ [toString now]) ∨
      ((dispatch st op).tasks.map Task.id).Sublist (st.tasks.map Task.id) := by
  cases op with
  | add v p now created =>
    by_cases h : trim v = ""
    · right; simp [dispatch, addTask, h]
    · left
      exact ⟨now, by simp [addClocks, h],
        by simp [dispatch, addTask, h, saveTasksToLocalStorage]⟩
  | toggle taskId =>
    right
    have : (toggleTaskCompletion st taskId).tasks.map Task.id = st.tasks.map Task.id := by
      simp only [toggleTaskCompletion, saveTasksToLocalStorage, List.map_map]
      apply List.map_congr_left
      intro t _
      by_cases h : t.id = taskId <;> simp [h]
    simp [dispatch, this]
  | delete taskId =>
    right
    exact List.Sublist.map _ (List.filter_sublist _)
  | edit taskId =>
    right
    simp only [dispatch, editTask]
    split <;> simp
  | saveEdit v p =>
    right
    simp only [dispatch, saveTaskEdit]
    split
    · simp
    · split
      · simp
      · split
        · simp
        · rename_i eid _ _ _
          have : ∀ l : List Task, (l.map fun task =>
              if task.id = eid then { task with text := trim v, priority := p } else task).map
                Task.id = l.map Task.id := by
            intro l
            rw [List.map_map]
            apply List.map_congr_left
            intro t _
            by_cases h : t.id = eid <;> simp [h]
          simp [closeEditModal, saveTasksToLocalStorage, this]
  | closeModal => right; simp [dispatch, closeEditModal]
  | clearCompleted =>
    right
    exact List.Sublist.map _ (List.filter_sublist _)
  | setFilter f => right; simp [dispatch, setFilter]
  | setSort s => right; simp [dispatch, setSort]

theorem run_ids_nodup (ops : List Op) : ∀ st : AppState,
    (st.tasks.map Task.id).Nodup →
    (∀ n ∈ addClocks ops, toString n ∉ st.tasks.map Task.id) →
    (addClocks ops).Nodup →
    ((run st ops).tasks.map Task.id).Nodup := by
  induction ops with
  | nil => intro st h _ _; simpa [run] using h
  | cons op ops ih =>
    intro st hnd hfresh hclk
    have hsub := addClocks_sublist_cons op ops
    show ((run (dispatch st op) ops).tasks.map Task.id).Nodup
    apply ih (dispatch st op) _ _ (hclk.sublist hsub)
    · rcases dispatch_ids st op with ⟨now, hnow, hids⟩ | hs
      · rw [hids]
        have hmem : now ∈ addClocks (op :: ops) := by
          rw [addClocks_cons_of_single op ops now hnow]
          exact List.mem_cons_self _ _
        have := hfresh now hmem
        rw [List.nodup_append]
        refine ⟨hnd, List.nodup_singleton _, ?_⟩
        intro a ha hb
        simp only [List.mem_singleton] at hb
        exact this (hb ▸ ha)
      · exact hnd.sublist hs
    · intro n hn
      rcases dispatch_ids st op with ⟨now, hnow, hids⟩ | hs
      · rw [hids]
        have hcons : addClocks (op :: ops) = now :: addClocks ops :=
          addClocks_cons_of_single op ops now hnow
        rw [hcons] at hclk hfresh
        simp only [List.mem_append, List.mem_singleton, not_or]
        refine ⟨hfresh n (List.mem_cons_of_mem _ hn), ?_⟩
        intro heq
        have := toString_nat_inj heq
        subst this
        exact (List.nodup_cons.mp hclk).1 hn
      · intro hmem
        exact hfresh n (hsub.subset hn) (hs.subset hmem)

/-- C1, as stated, fails: two additions that read the same value of
`Date.now()` produce two tasks with the same id. -/
theorem ids_unique_counterexample :
    sameClockState.tasks.map Task.id = ["5", "5"] ∧
      ¬ (sameClockState.tasks.map Task.id).Nodup := by
  decide

/-- C1 (amended): in every state reached from the empty list by a sequence
of events in which the values of `Date.now()` read by `addTask` are pairwise
distinct, no two tasks have the same id. -/
theorem ids_unique_of_distinct_clocks (stored : Option String) (ops : List Op)
    (h : (addClocks ops).Nodup) :
    ((run (initialState stored) ops).tasks.map Task.id).Nodup :=
  run_ids_nodup ops (initialState stored) (by simp [initialState])
    (by simp [initialState]) h

theorem ids_unique_of_distinct_clocks_witness :
    (addClocks [.add "Buy milk" "high" 1000 1000, .toggle "1000",
        .add "Call mom" "low" 1001 1001, .edit "1001", .saveEdit "Call dad" "medium",
        .delete "1000", .clearCompleted]).Nodup ∧
      ((run (initialState none) [.add "Buy milk" "high" 1000 1000, .toggle "1000",
        .add "Call mom" "low" 1001 1001, .edit "1001", .saveEdit "Call dad" "medium",
        .delete "1000", .clearCompleted]).tasks.map Task.id).Nodup :=
  ⟨by decide, ids_unique_of_distinct_clocks none _ (by decide)⟩


/-! ## Persistence calls -/

/-- C3, as stated, fails: toggling or deleting an id that matches no task,
and clearing completed tasks when there is none, each write the list to the
store although nothing changed. -/
theorem save_on_noop_counterexample :
    (toggleTaskCompletion (initialState none) "42").tasks = (initialState none).tasks ∧
      (toggleTaskCompletion (initialState none) "42").setItemCalls = 1 ∧
      (deleteTask (initialState none) "42").tasks = (initialState none).tasks ∧
      (deleteTask (initialState none) "42").setItemCalls = 1 ∧
      (clearCompletedTasks (initialState none)).tasks = (initialState none).tasks ∧
      (clearCompletedTasks (initialState none)).setItemCalls = 1 ∧
      (toggleTaskCompletion (initialState none) "42").storedTasks = some "[]" := by
  decide

/-- C3 (amended): `toggleTaskCompletion`, `deleteTask` and
`clearCompletedTasks` perform exactly one save on every call, whether or not
a task matched or the list changed, and the store then holds the
serialization of the resulting list; `addTask` and `saveTaskEdit` perform
one save when their guards pass (non-empty trimmed text, an edit session
open) and none otherwise. -/
theorem save_calls (st : AppState) (taskId text priority : String) (now created : Nat) :
    (toggleTaskCompletion st taskId).setItemCalls = st.setItemCalls + 1 ∧
      (deleteTask st taskId).setItemCalls = st.setItemCalls + 1 ∧
      (clearCompletedTasks st).setItemCalls = st.setItemCalls + 1 ∧
      (toggleTaskCompletion st taskId).storedTasks =
        some (JSONstringify (tasksToJS (toggleTaskCompletion st taskId).tasks)) ∧
      (deleteTask st taskId).storedTasks =
        some (JSONstringify (tasksToJS (deleteTask st taskId).tasks)) ∧
      (clearCompletedTasks st).storedTasks =
        some (JSONstringify (tasksToJS (clearCompletedTasks st).tasks)) ∧
      (addTask st text priority now created).setItemCalls =
        (if trim text = "" then st.setItemCalls else st.setItemCalls + 1) ∧
      (saveTaskEdit st text priority).setItemCalls =
        (if st.editingTaskId = none ∨ st.editingTaskId = some "" ∨ trim text = ""
          then st.setItemCalls else st.setItemCalls + 1) := by
  refine ⟨rfl, rfl, rfl, rfl, rfl, rfl, ?_, ?_⟩
  · unfold addTask
    by_cases h : trim text = "" <;> simp [h, saveTasksToLocalStorage]
  · unfold saveTaskEdit
    cases he : st.editingTaskId with
    | none => simp
    | some eid =>
      by_cases h1 : eid = ""
      · simp [h1]
      · by_cases h2 : trim text = ""
        · simp [h1, h2]
        · simp [h1, h2, closeEditModal, saveTasksToLocalStorage]

/-! ## Empty input -/

/-- C5: when the input text is empty after trimming, `addTask` and
`saveTaskEdit` return the state they were given, so the task list is
unchanged whatever the edit session and the selected priority are. -/
theorem empty_input_rejected (st : AppState) (text priority : String) (now created : Nat)
    (h : trim text = "") :
    addTask st text priority now created = st ∧
      (addTask st text priority now created).tasks = st.tasks ∧
      saveTaskEdit st text priority = st ∧
      (saveTaskEdit st text priority).tasks = st.tasks := by
  have h1 : addTask st text priority now created = st := by simp [addTask, h]
  have h2 : saveTaskEdit st text priority = st := by
    unfold saveTaskEdit
    cases st.editingTaskId with
    | none => rfl
    | some eid => by_cases he : eid = "" <;> simp [he, h]
  exact ⟨h1, by rw [h1], h2, by rw [h2]⟩

theorem empty_input_rejected_witness :
    trim "  \t\n " = "" ∧
      addTask (editTask milkState "1000") "  \t\n " "medium" 1002 1002
        = editTask milkState "1000" ∧
      (addTask (editTask milkState "1000") "  \t\n " "medium" 1002 1002).tasks
        = (editTask milkState "1000").tasks ∧
      saveTaskEdit (editTask milkState "1000") "  \t\n " "medium"
        = editTask milkState "1000" ∧
      (saveTaskEdit (editTask milkState "1000") "  \t\n " "medium").tasks
        = (editTask milkState "1000").tasks :=
  ⟨by decide, empty_input_rejected (editTask milkState "1000") "  \t\n " "medium" 1002 1002
    (by decide)⟩

/-! ## Filters -/

/-- C8: under `all` the filter returns the whole list, and a task is in the
list exactly when it is returned under `active` or under `completed`; no
task is returned under both. -/
theorem filters_partition (tasks : List Task) (t : Task) :
    getFilteredTasks tasks "all" = tasks ∧
      (t ∈ getFilteredTasks tasks "all" ↔
        t ∈ getFilteredTasks tasks "active" ∨ t ∈ getFilteredTasks tasks "completed") ∧
      ¬ (t ∈ getFilteredTasks tasks "active" ∧ t ∈ getFilteredTasks tasks "completed") := by
  have hall : getFilteredTasks tasks "all" = tasks := by
    simp [getFilteredTasks]
  have hact : getFilteredTasks tasks "active" = tasks.filter fun task => !task.completed := by
    unfold getFilteredTasks
    congr 1
  have hcomp : getFilteredTasks tasks "completed" = tasks.filter fun task => task.completed := by
    unfold getFilteredTasks
    congr 1
  rw [hall, hact, hcomp]
  refine ⟨rfl, ?_, ?_⟩
  · simp only [List.mem_filter]
    cases t.completed <;> simp
  · simp only [List.mem_filter]
    cases t.completed <;> simp

/-! ## Toggle -/

/-- C9: toggling the same id twice gives back the original task list, so
every `completed` flag has its original value. -/
theorem toggle_twice (st : AppState) (taskId : String) :
    (toggleTaskCompletion (toggleTaskCompletion st taskId) taskId).tasks = st.tasks := by
  simp only [toggleTaskCompletion, saveTasksToLocalStorage, List.map_map]
  conv_rhs => rw [← List.map_id st.tasks]
  apply List.map_congr_left
  intro t _
  by_cases h : t.id = taskId
  · subst h
    simp
  · simp [h]

/-! ## Counter -/

/-- C10: the counter text is `1 task left` when exactly one task is not
completed, and the decimal count followed by ` tasks left` otherwise. -/
theorem counter_text (tasks : List Task) :
    updateTasksCounter tasks =
      if (tasks.filter fun task => !task.completed).length = 1 then "1 task left"
      else toString (tasks.filter fun task => !task.completed).length ++ " tasks left" := by
  unfold updateTasksCounter
  by_cases h : (tasks.filter fun task => !task.completed).length = 1
  · simp only [h, if_true]
    decide
  · simp only [h, if_false, ne_eq, not_false_eq_true, if_true]
    rw [String.append_assoc, String.append_assoc]
    rfl

theorem counter_text_witness :
    updateTasksCounter milkState.tasks = "2 tasks left" ∧
      updateTasksCounter (toggleTaskCompletion milkState "1000").tasks = "1 task left" :=
  ⟨(counter_text milkState.tasks).trans (by decide),
    (counter_text (toggleTaskCompletion milkState "1000").tasks).trans (by decide)⟩

/-! ## Sorting -/

theorem priorityOrder_of_mem {p : String}
    (h : p = "high" ∨ p = "medium" ∨ p = "low") :
    ∃ r : Int, priorityOrder p = some r ∧ 0 ≤ r ∧ r ≤ 2 ∧ (r = 0 ↔ p = "high") := by
  rcases h with h | h | h <;> subst h
  · exact ⟨0, by decide, by decide, by decide, by decide⟩
  · exact ⟨1, by decide, by decide, by decide, by decide⟩
  · exact ⟨2, by decide, by decide, by decide, by decide⟩

/-- On tasks whose priorities are in the table the priority comparator
orders by rank. -/
theorem priority_compare_iff (P : Platform) {a b : Task}
    (ha : a.priority = "high" ∨ a.priority = "medium" ∨ a.priority = "low")
    (hb : b.priority = "high" ∨ b.priority = "medium" ∨ b.priority = "low") :
    sortCompare (compareFn P "priority" a b) ≤ 0 ↔ rankOf a ≤ rankOf b := by
  obtain ⟨ra, hra, -⟩ := priorityOrder_of_mem ha
  obtain ⟨rb, hrb, -⟩ := priorityOrder_of_mem hb
  have hc : compareFn P "priority" a b = some (ra - rb) := by
    unfold compareFn
    rw [if_neg (by decide), if_neg (by decide), if_pos rfl, hra, hrb]
    rfl
  simp only [hc, sortCompare, rankOf, hra, hrb, Option.getD_some]
  omega

/-- Inserting into a list ordered by a key keeps it ordered, when the
relation used for the insertion agrees with the key order on the elements
involved. -/
theorem pairwise_orderedInsert_key {α : Type} (r : α → α → Prop) [DecidableRel r]
    (key : α → Int) (S : α → Prop)
    (hr : ∀ a b, S a → S b → (r a b ↔ key a ≤ key b)) (a : α) (ha : S a) :
    ∀ s : List α, (∀ x ∈ s, S x) → s.Pairwise (fun x y => key x ≤ key y) →
      (s.orderedInsert r a).Pairwise (fun x y => key x ≤ key y) := by
  intro s
  induction s with
  | nil => intro _ _; simp
  | cons b s ih =>
    intro hS hp
    have hb : S b := hS b (List.mem_cons_self _ _)
    have hs : ∀ x ∈ s, S x := fun x hx => hS x (List.mem_cons_of_mem _ hx)
    obtain ⟨hbs, hps⟩ := List.pairwise_cons.mp hp
    rw [List.orderedInsert]
    by_cases hab : r a b
    · rw [if_pos hab]
      have hk := (hr a b ha hb).mp hab
      refine List.pairwise_cons.mpr ⟨?_, hp⟩
      intro x hx
      rcases List.mem_cons.mp hx with h | h
      · rw [h]; exact hk
      · exact le_trans hk (hbs x h)
    · rw [if_neg hab]
      have hk : key b ≤ key a := by
        have := (hr a b ha hb).not.mp hab
        omega
      refine List.pairwise_cons.mpr ⟨?_, ih hs hps⟩
      intro x hx
      rcases (List.mem_orderedInsert r).mp hx with h | h
      · rw [h]; exact hk
      · exact hbs x h

theorem pairwise_insertionSort_key {α : Type} (r : α → α → Prop) [DecidableRel r]
    (key : α → Int) (S : α → Prop)
    (hr : ∀ a b, S a → S b → (r a b ↔ key a ≤ key b)) :
    ∀ l : List α, (∀ x ∈ l, S x) →
      (l.insertionSort r).Pairwise (fun x y => key x ≤ key y) := by
  intro l
  induction l with
  | nil => intro _; simp
  | cons a l ih =>
    intro hS
    rw [List.insertionSort]
    apply pairwise_orderedInsert_key r key S hr a (hS a (List.mem_cons_self _ _))
    · intro x hx
      exact hS x (List.mem_cons_of_mem _ ((List.perm_insertionSort r l).subset hx))
    · exact ih fun x hx => hS x (List.mem_cons_of_mem _ hx)

/-- C6: on a list whose priorities are all `high`, `medium` or `low`, the
priority sort returns a permutation of the list in which the ranks
high(0), medium(1), low(2) never decrease; a task that stands before a
`high` task in the output is itself `high`. -/
theorem priority_sort_sorted (P : Platform) (tasks : List Task)
    (h : ∀ t ∈ tasks, t.priority = "high" ∨ t.priority = "medium" ∨ t.priority = "low") :
    (getSortedTasks P "priority" tasks).Perm tasks ∧
      (getSortedTasks P "priority" tasks).Pairwise (fun a b =>
        ∃ ra rb : Int, priorityOrder a.priority = some ra ∧
          priorityOrder b.priority = some rb ∧ ra ≤ rb) ∧
      ∀ a b : Task, [a, b].Sublist (getSortedTasks P "priority" tasks) →
        b.priority = "high" → a.priority = "high" := by
  have hperm : (getSortedTasks P "priority" tasks).Perm tasks :=
    List.perm_insertionSort _ _
  have hkey : (getSortedTasks P "priority" tasks).Pairwise
      (fun x y => rankOf x ≤ rankOf y) :=
    pairwise_insertionSort_key _ rankOf
      (fun t => t.priority = "high" ∨ t.priority = "medium" ∨ t.priority = "low")
      (fun a b ha hb => priority_compare_iff P ha hb) tasks h
  have hmem : ∀ t ∈ getSortedTasks P "priority" tasks,
      t.priority = "high" ∨ t.priority = "medium" ∨ t.priority = "low" :=
    fun t ht => h t (hperm.subset ht)
  have hranks : (getSortedTasks P "priority" tasks).Pairwise (fun a b =>
      ∃ ra rb : Int, priorityOrder a.priority = some ra ∧
        priorityOrder b.priority = some rb ∧ ra ≤ rb) := by
    refine (List.Pairwise.and_mem.mp hkey).imp ?_
    intro a b hab
    obtain ⟨ha, hb, hle⟩ := hab
    obtain ⟨ra, hra, -⟩ := priorityOrder_of_mem (hmem a ha)
    obtain ⟨rb, hrb, -⟩ := priorityOrder_of_mem (hmem b hb)
    refine ⟨ra, rb, hra, hrb, ?_⟩
    simpa [rankOf, hra, hrb] using hle
  refine ⟨hperm, hranks, ?_⟩
  intro a b hsub hbhigh
  have hpair := (List.Pairwise.and_mem.mp hkey).sublist hsub
  obtain ⟨ha, hb, hle⟩ := List.pairwise_pair.mp hpair
  obtain ⟨ra, hra, hra0, -, hiff⟩ := priorityOrder_of_mem (hmem a ha)
  have hrb : priorityOrder b.priority = some 0 := by rw [hbhigh]; decide
  apply hiff.mp
  simp only [rankOf, hra, hrb, Option.getD_some] at hle
  omega

theorem priority_sort_sorted_witness :
    (∀ t ∈ [mkTask "X" "low" 1, mkTask "Y" "high" 2],
        t.priority = "high" ∨ t.priority = "medium" ∨ t.priority = "low") ∧
      getSortedTasks codePointPlatform "priority" [mkTask "X" "low" 1, mkTask "Y" "high" 2]
        = [mkTask "Y" "high" 2, mkTask "X" "low" 1] ∧
      (getSortedTasks codePointPlatform "priority"
        [mkTask "X" "low" 1, mkTask "Y" "high" 2]).Pairwise (fun a b =>
          ∃ ra rb : Int, priorityOrder a.priority = some ra ∧
            priorityOrder b.priority = some rb ∧ ra ≤ rb) :=
  ⟨by decide, by decide,
    (priority_sort_sorted codePointPlatform [mkTask "X" "low" 1, mkTask "Y" "high" 2]
      (by decide)).2.1⟩

/-- Tasks with the same key in a mode are found equal by the comparator of
that mode: same time value, collation result zero, same rank. -/
theorem compare_zero_of_same_key (P : Platform) (a b : Task) :
    (timeValue P a.date = timeValue P b.date →
        sortCompare (compareFn P "date-added" a b) = 0) ∧
      (P.localeCompare a.text b.text = 0 →
        sortCompare (compareFn P "alphabetical" a b) = 0) ∧
      (priorityOrder a.priority = priorityOrder b.priority →
        sortCompare (compareFn P "priority" a b) = 0) := by
  refine ⟨?_, ?_, ?_⟩
  · intro h
    unfold compareFn
    rw [if_pos rfl, h]
    cases timeValue P b.date <;> simp [numSub, sortCompare]
  · intro h
    unfold compareFn
    rw [if_neg (by decide), if_pos rfl, h]
    rfl
  · intro h
    unfold compareFn
    rw [if_neg (by decide), if_neg (by decide), if_pos rfl, h]
    cases priorityOrder b.priority <;> simp [numSub, sortCompare]

/-! ### Consistent comparators -/

/-- A comparator that is the difference of an integer key is consistent. -/
theorem consistentOn_of_key {α : Type} (comparefn : α → α → Option Int) (key : α → Int)
    (xs : List α)
    (h : ∀ a ∈ xs, ∀ b ∈ xs, comparefn a b = some (key a - key b)) :
    ConsistentOn comparefn xs := by
  intro a ha b hb c hc
  simp only [h a ha b hb, h a ha a ha, h b hb a ha, h b hb c hc, h a ha c hc, sortCompare,
    Option.getD_some, Option.isSome_some, true_and]
  refine ⟨by omega, by omega, by omega, by omega, by omega⟩

/-- In priority mode the comparator is consistent for every list whose
priorities are in the table. -/
theorem consistentOn_priority (P : Platform) (tasks : List Task)
    (h : ∀ t ∈ tasks, t.priority = "high" ∨ t.priority = "medium" ∨ t.priority = "low") :
    ConsistentOn (compareFn P "priority") tasks := by
  apply consistentOn_of_key _ rankOf
  intro a ha b hb
  obtain ⟨ra, hra, -⟩ := priorityOrder_of_mem (h a ha)
  obtain ⟨rb, hrb, -⟩ := priorityOrder_of_mem (h b hb)
  unfold compareFn
  rw [if_neg (by decide), if_neg (by decide), if_pos rfl, hra, hrb]
  simp [numSub, rankOf, hra, hrb]

/-- In date mode the comparator is consistent for every list whose dates
have a time value. -/
theorem consistentOn_date (P : Platform) (tasks : List Task)
    (h : ∀ t ∈ tasks, ∃ v, timeValue P t.date = some v) :
    ConsistentOn (compareFn P "date-added") tasks := by
  apply consistentOn_of_key _ (fun t => - (timeValue P t.date).getD 0)
  intro a ha b hb
  obtain ⟨va, hva⟩ := h a ha
  obtain ⟨vb, hvb⟩ := h b hb
  unfold compareFn
  rw [if_pos rfl, hva, hvb]
  simp only [numSub, Option.getD_some, Option.some.injEq]
  omega

/-- In alphabetical mode the comparator is consistent when the collation
of the host is, as the language requires of `localeCompare`. -/
theorem consistentOn_alphabetical (P : Platform) (tasks : List Task)
    (h : ConsistentOn (fun s t => some (P.localeCompare s t)) (tasks.map Task.text)) :
    ConsistentOn (compareFn P "alphabetical") tasks := by
  intro a ha b hb c hc
  have := h a.text (List.mem_map_of_mem _ ha) b.text (List.mem_map_of_mem _ hb)
    c.text (List.mem_map_of_mem _ hc)
  unfold compareFn
  simp only [if_neg (show ¬ "alphabetical" = "date-added" by decide), if_true]
  exact this

theorem ConsistentOn.total {α : Type} {comparefn : α → α → Option Int} {xs : List α}
    (h : ConsistentOn comparefn xs) {a b : α} (ha : a ∈ xs) (hb : b ∈ xs) :
    sortCompare (comparefn a b) ≤ 0 ∨ sortCompare (comparefn b a) ≤ 0 := by
  obtain ⟨-, haa, hs, -, hlt, hgt⟩ := h a ha b hb a ha
  obtain ⟨-, -, hs2, -, -, -⟩ := h b hb a ha b hb
  by_contra hcon
  simp only [not_or, not_le] at hcon
  have := hgt hcon.1 hcon.2
  omega

theorem ConsistentOn.le_trans {α : Type} {comparefn : α → α → Option Int} {xs : List α}
    (h : ConsistentOn comparefn xs) {a b c : α} (ha : a ∈ xs) (hb : b ∈ xs) (hc : c ∈ xs)
    (hab : sortCompare (comparefn a b) ≤ 0) (hbc : sortCompare (comparefn b c) ≤ 0) :
    sortCompare (comparefn a c) ≤ 0 := by
  by_contra hcon
  simp only [not_le] at hcon
  obtain ⟨-, haa, -, h0, hlt, -⟩ := h a ha b hb c hc
  obtain ⟨-, hcc, hsca, -, -, hgt1⟩ := h c hc a ha c hc
  obtain ⟨-, -, hsac, -, -, hgt2⟩ := h a ha c hc a ha
  -- comparing `c` with `a` is negative
  have hca : sortCompare (comparefn c a) < 0 := by
    rcases lt_trichotomy (sortCompare (comparefn c a)) 0 with h1 | h1 | h1
    · exact h1
    · have := hsca h1; omega
    · have := hgt2 hcon h1; omega
  rcases lt_or_eq_of_le hab with hab1 | hab1
  · -- c < a < b gives c < b
    obtain ⟨-, -, -, -, hlt2, -⟩ := h c hc a ha b hb
    have hcb := hlt2 hca hab1
    rcases lt_or_eq_of_le hbc with hbc1 | hbc1
    · have := hlt hab1 hbc1; omega
    · obtain ⟨-, -, hsbc, -, -, -⟩ := h b hb c hc b hb
      have := hsbc hbc1
      omega
  · rcases lt_or_eq_of_le hbc with hbc1 | hbc1
    · -- b < c < a gives b < a
      obtain ⟨-, -, -, -, hlt3, -⟩ := h b hb c hc a ha
      have hba := hlt3 hbc1 hca
      obtain ⟨-, -, hsab, -, -, -⟩ := h a ha b hb a ha
      have := hsab hab1
      omega
    · have := h0 hab1 hbc1; omega

theorem ConsistentOn.eq_of_le {α : Type} {comparefn : α → α → Option Int} {xs : List α}
    (h : ConsistentOn comparefn xs) {a b : α} (ha : a ∈ xs) (hb : b ∈ xs)
    (hab : sortCompare (comparefn a b) ≤ 0) (hba : sortCompare (comparefn b a) ≤ 0) :
    sortCompare (comparefn a b) = 0 := by
  obtain ⟨-, haa, -, -, hlt, -⟩ := h a ha b hb a ha
  obtain ⟨-, -, hsba, -, -, -⟩ := h b hb a ha b hb
  rcases lt_or_eq_of_le hab with h1 | h1
  · rcases lt_or_eq_of_le hba with h2 | h2
    · have := hlt h1 h2; omega
    · have := hsba h2; omega
  · exact h1

/-! ### The insertion sort is the result the language prescribes -/

/-- Inserting into an ordered list keeps it ordered, when the relation is
total and transitive on the elements involved. -/
theorem pairwise_orderedInsert_local {α : Type} (r : α → α → Prop) [DecidableRel r]
    (S : α → Prop) (htot : ∀ a b, S a → S b → r a b ∨ r b a)
    (htr : ∀ a b c, S a → S b → S c → r a b → r b c → r a c) (a : α) (ha : S a) :
    ∀ s : List α, (∀ x ∈ s, S x) → s.Pairwise r → (s.orderedInsert r a).Pairwise r := by
  intro s
  induction s with
  | nil => intro _ _; simp
  | cons b s ih =>
    intro hS hp
    have hb : S b := hS b (List.mem_cons_self _ _)
    have hs : ∀ x ∈ s, S x := fun x hx => hS x (List.mem_cons_of_mem _ hx)
    obtain ⟨hbs, hps⟩ := List.pairwise_cons.mp hp
    rw [List.orderedInsert]
    by_cases hab : r a b
    · rw [if_pos hab]
      refine List.pairwise_cons.mpr ⟨?_, hp⟩
      intro x hx
      rcases List.mem_cons.mp hx with h | h
      · rw [h]; exact hab
      · exact htr a b x ha hb (hs x h) hab (hbs x h)
    · rw [if_neg hab]
      have hba : r b a := (htot a b ha hb).resolve_left hab
      refine List.pairwise_cons.mpr ⟨?_, ih hs hps⟩
      intro x hx
      rcases (List.mem_orderedInsert r).mp hx with h | h
      · rw [h]; exact hba
      · exact hbs x h

theorem pairwise_insertionSort_local {α : Type} (r : α → α → Prop) [DecidableRel r]
    (S : α → Prop) (htot : ∀ a b, S a → S b → r a b ∨ r b a)
    (htr : ∀ a b c, S a → S b → S c → r a b → r b c → r a c) :
    ∀ l : List α, (∀ x ∈ l, S x) → (l.insertionSort r).Pairwise r := by
  intro l
  induction l with
  | nil => intro _; simp
  | cons a l ih =>
    intro hS
    rw [List.insertionSort]
    apply pairwise_orderedInsert_local r S htot htr a (hS a (List.mem_cons_self _ _))
    · intro x hx
      exact hS x (List.mem_cons_of_mem _ ((List.perm_insertionSort r l).subset hx))
    · exact ih fun x hx => hS x (List.mem_cons_of_mem _ hx)

/-- The insertion sort returns a list that the language allows. -/
theorem sortResult_arraySort {α : Type} (comparefn : α → α → Option Int) (xs : List α) :
    SortResult comparefn xs (arraySort comparefn xs) := by
  refine ⟨List.perm_insertionSort _ _, fun hc => ⟨?_, ?_⟩⟩
  · exact pairwise_insertionSort_local _ (fun x => x ∈ xs)
      (fun a b ha hb => hc.total ha hb)
      (fun a b c ha hb hcm hab hbc => hc.le_trans ha hb hcm hab hbc) xs (fun x hx => hx)
  · intro x hx
    have hsub : (xs.filter fun y => decide (sortCompare (comparefn x y) = 0)).Sublist
        (arraySort comparefn xs) := by
      apply List.sublist_insertionSort _ (List.filter_sublist _)
      apply List.pairwise_of_forall_mem_list
      intro u hu v hv
      rw [List.mem_filter] at hu hv
      have hxu : sortCompare (comparefn x u) = 0 := by simpa using hu.2
      have hxv : sortCompare (comparefn x v) = 0 := by simpa using hv.2
      obtain ⟨-, -, hs, -, -, -⟩ := hc x hx u hu.1 x hx
      obtain ⟨-, -, -, ht, -, -⟩ := hc u hu.1 x hx v hv.1
      exact le_of_eq (ht (hs hxu) hxv)
    have hsub2 := hsub.filter (fun y => decide (sortCompare (comparefn x y) = 0))
    rw [List.filter_filter] at hsub2
    simp only [Bool.and_self] at hsub2
    have hlen := ((List.perm_insertionSort
      (fun a b => sortCompare (comparefn a b) ≤ 0) xs).filter
        (fun y => decide (sortCompare (comparefn x y) = 0))).length_eq
    exact (hsub2.eq_of_length hlen.symm).symm

/-- Two ordered permutations of each other in which the elements that
compare equal stand in the same order are the same list. -/
theorem sorted_stable_unique {α : Type} (comparefn : α → α → Option Int) (xs : List α)
    (hc : ConsistentOn comparefn xs) : ∀ out1 out2 : List α,
    (∀ y ∈ out1, y ∈ xs) → out1.Perm out2 →
    out1.Pairwise (fun a b => sortCompare (comparefn a b) ≤ 0) →
    out2.Pairwise (fun a b => sortCompare (comparefn a b) ≤ 0) →
    (∀ x ∈ xs, out1.filter (fun y => decide (sortCompare (comparefn x y) = 0)) =
      out2.filter (fun y => decide (sortCompare (comparefn x y) = 0))) →
    out1 = out2 := by
  intro out1
  induction out1 with
  | nil =>
    intro out2 _ hp _ _ _
    exact (List.nil_perm.mp hp).symm
  | cons h1 t1 ih =>
    intro out2 hmem hp hs1 hs2 hf
    cases out2 with
    | nil => exact absurd hp.symm (by simp)
    | cons h2 t2 =>
      have hh1 : h1 ∈ xs := hmem h1 (List.mem_cons_self _ _)
      have hh2 : h2 ∈ xs := hmem h2 (hp.symm.subset (List.mem_cons_self _ _))
      obtain ⟨-, hrefl1, -, -, -, -⟩ := hc h1 hh1 h1 hh1 h1 hh1
      obtain ⟨-, hrefl2, -, -, -, -⟩ := hc h2 hh2 h2 hh2 h2 hh2
      have hle12 : sortCompare (comparefn h1 h2) ≤ 0 := by
        rcases List.mem_cons.mp (hp.symm.subset (List.mem_cons_self h2 t2)) with h | h
        · rw [h]; omega
        · exact List.rel_of_pairwise_cons hs1 h
      have hle21 : sortCompare (comparefn h2 h1) ≤ 0 := by
        rcases List.mem_cons.mp (hp.subset (List.mem_cons_self h1 t1)) with h | h
        · rw [h]; omega
        · exact List.rel_of_pairwise_cons hs2 h
      have heq12 := hc.eq_of_le hh1 hh2 hle12 hle21
      have hhead := hf h1 hh1
      rw [List.filter_cons_of_pos (by simpa using hrefl1),
        List.filter_cons_of_pos (by simpa using heq12)] at hhead
      have hh : h1 = h2 := (List.cons.inj hhead).1
      subst hh
      have hpt : t1.Perm t2 := hp.cons_inv
      have hft : ∀ x ∈ xs, t1.filter (fun y => decide (sortCompare (comparefn x y) = 0)) =
          t2.filter (fun y => decide (sortCompare (comparefn x y) = 0)) := by
        intro x hx
        have := hf x hx
        by_cases hxh : sortCompare (comparefn x h1) = 0
        · rw [List.filter_cons_of_pos (by simpa using hxh),
            List.filter_cons_of_pos (by simpa using hxh)] at this
          exact (List.cons.inj this).2
        · rw [List.filter_cons_of_neg (by simpa using hxh),
            List.filter_cons_of_neg (by simpa using hxh)] at this
          exact this
      rw [ih t2 (fun y hy => hmem y (List.mem_cons_of_mem _ hy)) hpt
        (List.Pairwise.of_cons hs1) (List.Pairwise.of_cons hs2) hft]

/-- With a consistent comparator the language allows one list only, the
one that the insertion sort returns. -/
theorem sortResult_unique {α : Type} (comparefn : α → α → Option Int) (xs out : List α)
    (hc : ConsistentOn comparefn xs) (h : SortResult comparefn xs out) :
    out = arraySort comparefn xs := by
  obtain ⟨hp, hrest⟩ := h
  obtain ⟨hs, hf⟩ := hrest hc
  obtain ⟨hp2, hrest2⟩ := sortResult_arraySort comparefn xs
  obtain ⟨hs2, hf2⟩ := hrest2 hc
  exact sorted_stable_unique comparefn xs hc out _ (fun y hy => hp.subset hy)
    (hp.trans hp2.symm) hs hs2 (fun x hx => (hf x hx).trans (hf2 x hx).symm)

/-- C7, as stated, fails: with a priority outside the table the comparator
returns `NaN` for some pairs, the language leaves the order to the
implementation, and a sort by binary insertion moves the `high` task `h2`
in front of the `high` task `h1` that stood before it, although the two
compare equal; likewise it moves `d` in front of `c` in the list of four. -/
theorem sort_stable_counterexample :
    SortResult (compareFn codePointPlatform "priority") nanTasks nanTasksSorted ∧
      compareFn codePointPlatform "priority" (mkTask "h1" "high" 5) (mkTask "h2" "high" 7)
        = some 0 ∧
      [mkTask "h1" "high" 5, mkTask "h2" "high" 7].Sublist nanTasks ∧
      ¬ [mkTask "h1" "high" 5, mkTask "h2" "high" 7].Sublist nanTasksSorted ∧
      SortResult (compareFn codePointPlatform "priority") urgentTasks urgentTasksSorted ∧
      sortCompare (compareFn codePointPlatform "priority"
        (mkTask "c" "urgent" 2) (mkTask "d" "high" 3)) = 0 ∧
      [mkTask "c" "urgent" 2, mkTask "d" "high" 3].Sublist urgentTasks ∧
      ¬ [mkTask "c" "urgent" 2, mkTask "d" "high" 3].Sublist urgentTasksSorted := by
  refine ⟨⟨by decide, fun hc => absurd hc (by decide)⟩, by decide, by decide, by decide,
    ⟨by decide, fun hc => absurd hc (by decide)⟩, by decide, by decide, by decide⟩

/-- C7 (amended): in every sort mode, when the comparator of the mode is a
consistent comparison function for the tasks of the list, `getSortedTasks`
returns a list that the language allows, it is the only such list, and two
tasks that compare equal keep their input order in it: if `a` stands before
`b` in the input, it does in the output.  The comparator is consistent in
priority mode when the priorities are in the table, in date mode when the
dates have a time value, and in alphabetical mode when the collation of the
host is consistent on the texts. -/
theorem sort_stable (P : Platform) (currentSort : String) (tasks : List Task) :
    (ConsistentOn (compareFn P currentSort) tasks →
        SortResult (compareFn P currentSort) tasks (getSortedTasks P currentSort tasks) ∧
        ∀ out : List Task, SortResult (compareFn P currentSort) tasks out →
          out = getSortedTasks P currentSort tasks ∧
          ∀ a b : Task, [a, b].Sublist tasks →
            sortCompare (compareFn P currentSort a b) = 0 → [a, b].Sublist out) ∧
      ((∀ t ∈ tasks, t.priority = "high" ∨ t.priority = "medium" ∨ t.priority = "low") →
        ConsistentOn (compareFn P "priority") tasks) ∧
      ((∀ t ∈ tasks, ∃ v, timeValue P t.date = some v) →
        ConsistentOn (compareFn P "date-added") tasks) ∧
      (ConsistentOn (fun s t => some (P.localeCompare s t)) (tasks.map Task.text) →
        ConsistentOn (compareFn P "alphabetical") tasks) := by
  refine ⟨fun hc => ⟨sortResult_arraySort _ _, fun out hout => ⟨?_, ?_⟩⟩,
    consistentOn_priority P tasks, consistentOn_date P tasks,
    consistentOn_alphabetical P tasks⟩
  · exact sortResult_unique _ _ _ hc hout
  · intro a b hab heq
    obtain ⟨-, hrest⟩ := hout
    obtain ⟨-, hf⟩ := hrest hc
    have ha : a ∈ tasks := hab.subset (List.mem_cons_self _ _)
    obtain ⟨-, hrefl, -, -, -, -⟩ := hc a ha a ha a ha
    have h1 := hab.filter (fun y => decide (sortCompare (compareFn P currentSort a y) = 0))
    rw [List.filter_cons_of_pos (by simpa using hrefl),
      List.filter_cons_of_pos (by simpa using heq), List.filter_nil, ← hf a ha] at h1
    exact h1.trans (List.filter_sublist _)

theorem sort_stable_witness :
    ConsistentOn (compareFn codePointPlatform "priority")
        [mkTask "b" "low" 1, mkTask "c" "high" 2, mkTask "a" "low" 3] ∧
      [mkTask "b" "low" 1, mkTask "a" "low" 3].Sublist
        [mkTask "b" "low" 1, mkTask "c" "high" 2, mkTask "a" "low" 3] ∧
      sortCompare (compareFn codePointPlatform "priority"
        (mkTask "b" "low" 1) (mkTask "a" "low" 3)) = 0 ∧
      getSortedTasks codePointPlatform "priority"
          [mkTask "b" "low" 1, mkTask "c" "high" 2, mkTask "a" "low" 3] =
        [mkTask "c" "high" 2, mkTask "b" "low" 1, mkTask "a" "low" 3] ∧
      [mkTask "b" "low" 1, mkTask "a" "low" 3].Sublist
        (getSortedTasks codePointPlatform "priority"
          [mkTask "b" "low" 1, mkTask "c" "high" 2, mkTask "a" "low" 3]) :=
  ⟨by decide, by decide, by decide, by decide,
    ((((sort_stable codePointPlatform "priority"
      [mkTask "b" "low" 1, mkTask "c" "high" 2, mkTask "a" "low" 3]).1 (by decide)).2
      _ ((sort_stable codePointPlatform "priority"
      [mkTask "b" "low" 1, mkTask "c" "high" 2, mkTask "a" "low" 3]).1 (by decide)).1).2
      (mkTask "b" "low" 1) (mkTask "a" "low" 3) (by decide) (by decide))⟩

/-! ## Reading back what `JSON.stringify` wrote -/

theorem hex4_low (n : Nat) (h : n < 32) :
    hex4 '0' '0' (Nat.digitChar (n / 16)) (Nat.digitChar (n % 16)) = some n := by
  interval_cases n <;> rfl

theorem charOfUnit_low (c : Char) (h : c.toNat < 32) : charOfUnit c.toNat = c := by
  unfold charOfUnit
  rw [if_neg (by omega)]
  exact Char.ofNat_toNat c

/-- The escape of a character other than `"` and `\` that `quoteChar`
writes with a reverse solidus is read back as the character. -/
theorem parseEscape_quoteChar (c : Char) (tail : List Char)
    (h : c = dquote ∨ c = bslash ∨ c.toNat < 32) :
    ∃ body, quoteChar c ++ tail = bslash :: body ∧ parseEscape body = some (c, tail) := by
  unfold quoteChar
  by_cases h1 : c = dquote
  · subst h1; exact ⟨_, rfl, rfl⟩
  rw [if_neg h1]
  by_cases h2 : c = bslash
  · subst h2; exact ⟨_, rfl, rfl⟩
  rw [if_neg h2]
  by_cases h3 : c = Char.ofNat 8
  · subst h3; exact ⟨_, rfl, rfl⟩
  rw [if_neg h3]
  by_cases h4 : c = Char.ofNat 12
  · subst h4; exact ⟨_, rfl, rfl⟩
  rw [if_neg h4]
  by_cases h5 : c = Char.ofNat 10
  · subst h5; exact ⟨_, rfl, rfl⟩
  rw [if_neg h5]
  by_cases h6 : c = Char.ofNat 13
  · subst h6; exact ⟨_, rfl, rfl⟩
  rw [if_neg h6]
  by_cases h7 : c = Char.ofNat 9
  · subst h7; exact ⟨_, rfl, rfl⟩
  rw [if_neg h7]
  have h8 : c.toNat < 32 := by
    rcases h with h | h | h
    · exact absurd h h1
    · exact absurd h h2
    · exact h
  rw [if_pos h8]
  refine ⟨'u' :: '0' :: '0' :: Nat.digitChar (c.toNat / 16) ::
    Nat.digitChar (c.toNat % 16) :: tail, rfl, ?_⟩
  rw [parseEscape.eq_def]
  simp only [hex4_low c.toNat h8]
  repeat rw [if_neg (by decide)]
  rw [if_pos trivial, charOfUnit_low c h8]
  split
  · split
    · rw [if_neg (by omega)]
    · rfl
  · rfl

theorem quoteChar_plain (c : Char) (h1 : c ≠ dquote) (h2 : c ≠ bslash)
    (h3 : ¬ c.toNat < 32) : quoteChar c = [c] := by
  unfold quoteChar
  rw [if_neg h1, if_neg h2]
  have h8 : ∀ n, n < 32 → c ≠ Char.ofNat n := by
    intro n hn hc
    apply h3
    rw [hc]
    interval_cases n <;> decide
  rw [if_neg (h8 8 (by decide)), if_neg (h8 12 (by decide)), if_neg (h8 10 (by decide)),
    if_neg (h8 13 (by decide)), if_neg (h8 9 (by decide)), if_neg h3]

/-- One escaped character is read back as the character itself. -/
theorem parseChars_quoteChar (fuel : Nat) (c : Char) (tail acc : List Char) :
    parseChars (fuel + 1) (quoteChar c ++ tail) acc = parseChars fuel tail (c :: acc) := by
  by_cases h : c = dquote ∨ c = bslash ∨ c.toNat < 32
  · obtain ⟨body, hb, he⟩ := parseEscape_quoteChar c tail h
    rw [hb, parseChars.eq_def]
    simp only [he]
    rw [if_neg (by decide), if_pos trivial]
  · simp only [not_or] at h
    obtain ⟨h1, h2, h3⟩ := h
    rw [quoteChar_plain c h1 h2 h3, parseChars.eq_def]
    simp only [List.singleton_append, if_neg h1, if_neg h2, if_neg h3]

theorem quoteChar_length_pos (c : Char) : 0 < (quoteChar c).length := by
  unfold quoteChar
  repeat' split
  all_goals simp

theorem quoteBody_cons (c : Char) (s : List Char) :
    quoteBody (c :: s) = quoteChar c ++ quoteBody s := by
  simp [quoteBody]

/-- The body of a quoted string followed by the closing quote is read back
as the string. -/
theorem parseChars_quoteBody (s : List Char) : ∀ (fuel : Nat) (tail acc : List Char),
    s.length < fuel →
    parseChars fuel (quoteBody s ++ dquote :: tail) acc = some (acc.reverse ++ s, tail) := by
  induction s with
  | nil =>
    intro fuel tail acc h
    obtain ⟨f, rfl⟩ : ∃ f, fuel = f + 1 := ⟨fuel - 1, by simp at h; omega⟩
    show parseChars (f + 1) (dquote :: tail) acc = _
    rw [parseChars.eq_def]
    simp
  | cons c s ih =>
    intro fuel tail acc h
    obtain ⟨f, rfl⟩ : ∃ f, fuel = f + 1 := ⟨fuel - 1, by simp at h; omega⟩
    rw [quoteBody_cons, List.append_assoc, parseChars_quoteChar, ih f tail (c :: acc)
      (by simp at h; omega)]
    simp

theorem quoteBody_length (s : List Char) : s.length ≤ (quoteBody s).length := by
  induction s with
  | nil => simp [quoteBody]
  | cons c s ih =>
    rw [quoteBody_cons, List.length_append, List.length_cons]
    have := quoteChar_length_pos c
    omega

theorem parseString_quote (s : String) (tail : List Char) :
    parseString (quoteBody s.data ++ dquote :: tail) = some (s, tail) := by
  unfold parseString
  rw [parseChars_quoteBody s.data _ tail [] (by
    have := quoteBody_length s.data
    simp only [List.length_append, List.length_cons]
    omega)]
  rfl

theorem skipWS_cons_of_not_ws (c : Char) (cs : List Char) (h : isJSONWhiteSpace c = false) :
    skipWS (c :: cs) = c :: cs := by
  simp [skipWS, h]

theorem quoteJSONString_append (s : String) (tail : List Char) :
    quoteJSONString s ++ tail = dquote :: (quoteBody s.data ++ dquote :: tail) := by
  simp [quoteJSONString]

/-- A quoted string is parsed as the string value. -/
theorem parseValue_string (fuel : Nat) (s : String) (tail : List Char) :
    parseValue (fuel + 1) (quoteJSONString s ++ tail) = some (.str s, skipWS tail) := by
  rw [quoteJSONString_append, parseValue.eq_def]
  simp only [skipWS_cons_of_not_ws dquote _ (by decide)]
  rw [if_neg (by decide), if_neg (by decide), parseScalar, if_pos rfl, parseString_quote]

/-- The literals `true` and `false` are parsed as the boolean. -/
theorem parseValue_bool (fuel : Nat) (b : Bool) (tail : List Char) :
    parseValue (fuel + 1) (stringifyValue (.bool b) ++ tail) = some (.bool b, skipWS tail) := by
  cases b <;> rfl

/-- One member `"k":v` followed by `,` or by the closing brace. -/
theorem parseMembers_step (fuel : Nat) (k : String) (body rest : List Char) (v : JSValue)
    (d : Char) (acc : List (String × JSValue))
    (hv : parseValue (fuel + 1) body = some (v, d :: rest)) :
    parseMembers (fuel + 2) (quoteJSONString k ++ ':' :: body) acc =
      if d = ',' then parseMembers (fuel + 1) rest (setProp k v acc)
      else if d = rbrace then some (setProp k v acc, rest)
      else none := by
  rw [quoteJSONString_append, parseMembers.eq_def]
  simp only [skipWS_cons_of_not_ws dquote _ (by decide)]
  rw [if_pos trivial, parseString_quote]
  simp only [skipWS_cons_of_not_ws ':' _ (by decide)]
  rw [if_pos trivial, hv]

theorem parseMembers_comma (fuel : Nat) (k : String) (sv rest : List Char) (v : JSValue)
    (acc : List (String × JSValue))
    (hv : ∀ tail, parseValue (fuel + 1) (sv ++ tail) = some (v, skipWS tail)) :
    parseMembers (fuel + 2) (quoteJSONString k ++ ':' :: (sv ++ ',' :: rest)) acc =
      parseMembers (fuel + 1) rest (setProp k v acc) := by
  rw [parseMembers_step fuel k _ rest v ',' acc
    (by rw [hv, skipWS_cons_of_not_ws _ _ (by decide)]), if_pos rfl]

theorem parseMembers_last (fuel : Nat) (k : String) (sv rest : List Char) (v : JSValue)
    (acc : List (String × JSValue))
    (hv : ∀ tail, parseValue (fuel + 1) (sv ++ tail) = some (v, skipWS tail)) :
    parseMembers (fuel + 2) (quoteJSONString k ++ ':' :: (sv ++ rbrace :: rest)) acc =
      some (setProp k v acc, rest) := by
  rw [parseMembers_step fuel k _ rest v rbrace acc
    (by rw [hv, skipWS_cons_of_not_ws _ _ (by decide)]), if_neg (by decide), if_pos rfl]

theorem parseValue_date (fuel : Nat) (d : DateValue) (tail : List Char) :
    parseValue (fuel + 1) (stringifyValue d.toJS ++ tail) =
      some (d.reloaded.toJS, skipWS tail) := by
  cases d with
  | object t => exact parseValue_string fuel (toISOString t) tail
  | string s => exact parseValue_string fuel s tail

theorem stringify_task (t : Task) (tail : List Char) :
    stringifyValue t.toJS ++ tail =
      lbrace :: (quoteJSONString "id" ++ ':' :: (quoteJSONString t.id ++ ',' ::
        (quoteJSONString "text" ++ ':' :: (quoteJSONString t.text ++ ',' ::
        (quoteJSONString "completed" ++ ':' :: (stringifyValue (.bool t.completed) ++ ',' ::
        (quoteJSONString "priority" ++ ':' :: (quoteJSONString t.priority ++ ',' ::
        (quoteJSONString "date" ++ ':' ::
          (stringifyValue t.date.toJS ++ rbrace :: tail)))))))))) := by
  simp [Task.toJS, stringifyValue, stringifyProps, List.append_assoc]

/-- The serialization of a task is parsed as the object with the same
`id`, `text`, `completed` and `priority` and with the reloaded `date`. -/
theorem parseValue_task (fuel : Nat) (t : Task) (tail : List Char) :
    parseValue (fuel + 7) (stringifyValue t.toJS ++ tail) =
      some (t.reloaded.toJS, skipWS tail) := by
  have hm : parseMembers (fuel + 4 + 2)
      (quoteJSONString "id" ++ ':' :: (quoteJSONString t.id ++ ',' ::
        (quoteJSONString "text" ++ ':' :: (quoteJSONString t.text ++ ',' ::
        (quoteJSONString "completed" ++ ':' :: (stringifyValue (.bool t.completed) ++ ',' ::
        (quoteJSONString "priority" ++ ':' :: (quoteJSONString t.priority ++ ',' ::
        (quoteJSONString "date" ++ ':' ::
          (stringifyValue t.date.toJS ++ rbrace :: tail)))))))))) [] =
      some ([("id", .str t.id), ("text", .str t.text), ("completed", .bool t.completed),
        ("priority", .str t.priority), ("date", t.date.reloaded.toJS)], tail) := by
    rw [parseMembers_comma (fuel + 4) "id" _ _ (.str t.id) []
      (fun tl => parseValue_string _ t.id tl)]
    rw [parseMembers_comma (fuel + 3) "text" _ _ (.str t.text) _
      (fun tl => parseValue_string _ t.text tl)]
    rw [parseMembers_comma (fuel + 2) "completed" _ _ (.bool t.completed) _
      (fun tl => parseValue_bool _ t.completed tl)]
    rw [parseMembers_comma (fuel + 1) "priority" _ _ (.str t.priority) _
      (fun tl => parseValue_string _ t.priority tl)]
    rw [parseMembers_last fuel "date" _ _ t.date.reloaded.toJS _
      (fun tl => parseValue_date _ t.date tl)]
    rfl
  rw [stringify_task]
  show parseValue (fuel + 6 + 1) _ = _
  rw [parseValue.eq_def]
  simp only [skipWS_cons_of_not_ws lbrace _ (by decide)]
  rw [if_pos trivial, quoteJSONString_append "id"]
  simp only [skipWS_cons_of_not_ws dquote _ (by decide)]
  rw [if_neg (by decide), ← quoteJSONString_append "id"]
  rw [show fuel + 6 = fuel + 4 + 2 from rfl, hm]
  rfl

/-- One array element followed by `,` or by the closing bracket. -/
theorem parseElements_step (fuel : Nat) (body rest : List Char) (v : JSValue) (d : Char)
    (acc : List JSValue) (hv : parseValue fuel body = some (v, d :: rest)) :
    parseElements (fuel + 1) body acc =
      if d = ',' then parseElements fuel rest (acc ++ [v])
      else if d = ']' then some (acc ++ [v], rest)
      else none := by
  rw [parseElements.eq_def]
  simp only [hv]

theorem stringifyItems_cons_cons (x y : JSValue) (rest : List JSValue) :
    stringifyItems (x :: y :: rest) = stringifyValue x ++ ',' :: stringifyItems (y :: rest) := by
  simp [stringifyItems]

theorem stringifyItems_single (x : JSValue) : stringifyItems [x] = stringifyValue x := by
  simp [stringifyItems]

/-- The serialized elements of a non-empty task array followed by the
closing bracket are parsed as the reloaded tasks. -/
theorem parseElements_tasks (ts : List Task) : ∀ (t : Task) (fuel : Nat)
    (acc : List JSValue) (tail : List Char),
    parseElements (fuel + ts.length + 8)
        (stringifyItems ((t :: ts).map Task.toJS) ++ ']' :: tail) acc =
      some (acc ++ (t :: ts).map fun x => x.reloaded.toJS, tail) := by
  induction ts with
  | nil =>
    intro t fuel acc tail
    simp only [List.map_cons, List.map_nil, stringifyItems_single, List.length_nil]
    rw [show fuel + 0 + 8 = (fuel + 0 + 7) + 1 by omega]
    rw [parseElements_step (fuel + 0 + 7) _ tail t.reloaded.toJS ']' acc
      (by rw [parseValue_task (fuel + 0) t, skipWS_cons_of_not_ws ']' _ (by decide)]),
      if_neg (by decide), if_pos rfl]
  | cons t2 ts ih =>
    intro t fuel acc tail
    simp only [List.map_cons, stringifyItems_cons_cons, List.length_cons, List.append_assoc,
      List.cons_append]
    rw [show fuel + (ts.length + 1) + 8 = (fuel + ts.length + 1 + 7) + 1 by omega]
    rw [parseElements_step (fuel + ts.length + 1 + 7) _ _ t.reloaded.toJS ',' acc
      (by rw [parseValue_task (fuel + ts.length + 1) t,
        skipWS_cons_of_not_ws ',' _ (by decide)]), if_pos rfl]
    have := ih t2 fuel (acc ++ [t.reloaded.toJS]) tail
    simp only [List.map_cons, List.append_assoc, List.singleton_append] at this
    rw [show fuel + ts.length + 1 + 7 = fuel + ts.length + 8 by omega]
    exact this

theorem stringifyValue_task_length (t : Task) : 2 ≤ (stringifyValue t.toJS).length := by
  have := stringify_task t []
  rw [List.append_nil] at this
  rw [this]
  simp only [List.length_cons, List.length_append]
  omega

theorem stringifyItems_tasks_length (ts : List Task) : ∀ t : Task,
    2 * (ts.length + 1) ≤ (stringifyItems ((t :: ts).map Task.toJS)).length := by
  induction ts with
  | nil =>
    intro t
    simp only [List.map_cons, List.map_nil, stringifyItems_single, List.length_nil]
    exact stringifyValue_task_length t
  | cons t2 ts ih =>
    intro t
    have h1 := stringifyValue_task_length t
    have h2 := ih t2
    simp only [List.map_cons] at h2
    simp only [List.map_cons, stringifyItems_cons_cons, List.length_cons, List.length_append]
    omega

theorem stringifyItems_tasks_head (t : Task) (ts : List Task) (tail : List Char) :
    ∃ rest, stringifyItems ((t :: ts).map Task.toJS) ++ tail = lbrace :: rest := by
  cases ts with
  | nil =>
    simp only [List.map_cons, List.map_nil, stringifyItems_single]
    rw [stringify_task]
    exact ⟨_, rfl⟩
  | cons t2 ts =>
    simp only [List.map_cons, stringifyItems_cons_cons, List.append_assoc, List.cons_append]
    rw [stringify_task]
    exact ⟨_, rfl⟩

/-- Parsing the serialization of a task array gives the array of the
reloaded tasks. -/
theorem JSONparse_stringify_tasks (tasks : List Task) :
    JSONparse (JSONstringify (tasksToJS tasks)) = .ok (tasksToJS (tasks.map Task.reloaded)) := by
  cases tasks with
  | nil => rfl
  | cons t ts =>
    have hdata : (JSONstringify (tasksToJS (t :: ts))).data =
        '[' :: (stringifyItems ((t :: ts).map Task.toJS) ++ [']']) := by
      simp [JSONstringify, tasksToJS, stringifyValue]
    have hlen := stringifyItems_tasks_length ts t
    obtain ⟨rest, hrest⟩ := stringifyItems_tasks_head t ts [']']
    unfold JSONparse
    rw [hdata]
    obtain ⟨f, hf⟩ : ∃ f, 2 * ('[' :: (stringifyItems ((t :: ts).map Task.toJS)
        ++ [']'])).length + 2 = (f + ts.length + 8) + 1 := by
      refine ⟨2 * ('[' :: (stringifyItems ((t :: ts).map Task.toJS)
        ++ [']'])).length + 2 - (ts.length + 9), ?_⟩
      simp only [List.length_cons, List.length_append, List.length_nil]
      omega
    rw [hf, parseValue.eq_def]
    simp only [skipWS_cons_of_not_ws '[' _ (by decide)]
    rw [if_neg (by decide), if_pos trivial, hrest]
    simp only [skipWS_cons_of_not_ws lbrace _ (by decide)]
    rw [if_neg (by decide), ← hrest, parseElements_tasks ts t f [] []]
    simp [tasksToJS, skipWS]

theorem JSONstringify_tasks_ne_empty (tasks : List Task) :
    JSONstringify (tasksToJS tasks) ≠ "" := by
  intro h
  have := congrArg String.data h
  simp [JSONstringify, tasksToJS, stringifyValue] at this


/-! ## The fuel of the parser -/

theorem skipWS_length (cs : List Char) : (skipWS cs).length ≤ cs.length := by
  induction cs with
  | nil => simp [skipWS]
  | cons c cs ih =>
    unfold skipWS
    split
    · simp only [List.length_cons]; omega
    · exact le_refl _

theorem dropLiteral_length (lit : List Char) : ∀ (cs r : List Char),
    dropLiteral lit cs = some r → r.length ≤ cs.length := by
  induction lit with
  | nil => intro cs r h; simp [dropLiteral] at h; subst h; exact le_refl _
  | cons l ls ih =>
    intro cs r h
    cases cs with
    | nil => simp [dropLiteral] at h
    | cons c cs =>
      unfold dropLiteral at h
      split at h
      · have := ih cs r h
        simp only [List.length_cons]; omega
      · cases h

theorem takeDigits_length (cs : List Char) : (takeDigits cs).2.length ≤ cs.length := by
  induction cs with
  | nil => simp [takeDigits]
  | cons c cs ih =>
    unfold takeDigits
    split
    · simp only [List.length_cons]; omega
    · exact le_refl _

theorem takeDigits_length_of_eq {cs ds r : List Char} (h : takeDigits cs = (ds, r)) :
    r.length ≤ cs.length := by
  have := takeDigits_length cs
  rw [h] at this
  exact this

theorem numberSign_length (cs : List Char) : (numberSign cs).2.length ≤ cs.length := by
  cases cs with
  | nil => simp [numberSign]
  | cons c r =>
    simp only [numberSign]
    split
    · simp only [List.length_cons]; omega
    · exact le_refl _

theorem numberInt_length (cs ip r : List Char) (h : numberInt cs = some (ip, r)) :
    r.length < cs.length := by
  cases cs with
  | nil => simp [numberInt] at h
  | cons c rest =>
    simp only [numberInt] at h
    have := takeDigits_length rest
    split at h
    · cases h; simp
    · split at h
      · cases h; simp only [List.length_cons]; omega
      · cases h

theorem numberFrac_length (cs fp r : List Char) (h : numberFrac cs = some (fp, r)) :
    r.length ≤ cs.length := by
  cases cs with
  | nil => simp [numberFrac] at h; rw [h.2]
  | cons c rest =>
    simp only [numberFrac] at h
    have := takeDigits_length rest
    split at h
    · split at h
      · cases h
      · cases h; simp only [List.length_cons]; omega
    · cases h; exact le_refl _

theorem exponentSign_length (cs : List Char) : (exponentSign cs).2.length ≤ cs.length := by
  cases cs with
  | nil => simp [exponentSign]
  | cons c r =>
    simp only [exponentSign]
    split
    · simp only [List.length_cons]; omega
    · exact le_refl _

theorem numberExp_length (cs ep r : List Char) (h : numberExp cs = some (ep, r)) :
    r.length ≤ cs.length := by
  cases cs with
  | nil => simp [numberExp] at h; rw [h.2]
  | cons c rest =>
    simp only [numberExp] at h
    have h1 := exponentSign_length rest
    have h2 := takeDigits_length (exponentSign rest).2
    split at h
    · split at h
      · cases h
      · cases h; simp only [List.length_cons]; omega
    · cases h; exact le_refl _

theorem parseNumber_length (cs l r : List Char) (h : parseNumber cs = some (l, r)) :
    r.length < cs.length := by
  unfold parseNumber at h
  have h0 := numberSign_length cs
  split at h
  · cases h
  · rename_i ip r1 hi
    have h1 := numberInt_length _ _ _ hi
    split at h
    · cases h
    · rename_i fp r2 hf
      have h2 := numberFrac_length _ _ _ hf
      split at h
      · cases h
      · rename_i ep r3 he
        have h3 := numberExp_length _ _ _ he
        cases h
        omega

theorem parseEscape_u_length (r rest : List Char) (d : Char)
    (h : (match r with
      | a :: b :: c1 :: d :: rest1 =>
        match hex4 a b c1 d with
        | none => none
        | some hi =>
          match rest1 with
          | s :: u :: a2 :: b2 :: c2 :: d2 :: rest2 =>
            match hex4 a2 b2 c2 d2 with
            | some lo =>
              if s = bslash ∧ u = 'u' ∧ 55296 ≤ hi ∧ hi < 56320 ∧ 56320 ≤ lo ∧ lo < 57344 then
                some (Char.ofNat (65536 + (hi - 55296) * 1024 + (lo - 56320)), rest2)
              else some (charOfUnit hi, rest1)
            | none => some (charOfUnit hi, rest1)
          | _ => some (charOfUnit hi, rest1)
      | _ => none) = some (d, rest)) : rest.length < r.length := by
  split at h
  · split at h
    · cases h
    · split at h
      · split at h
        · split at h
          · simp only [Option.some.injEq, Prod.mk.injEq] at h
            rw [← h.2]; simp only [List.length_cons]; omega
          · simp only [Option.some.injEq, Prod.mk.injEq] at h
            rw [← h.2]; simp only [List.length_cons]; omega
        · simp only [Option.some.injEq, Prod.mk.injEq] at h
          rw [← h.2]; simp only [List.length_cons]; omega
      · simp only [Option.some.injEq, Prod.mk.injEq] at h
        rw [← h.2]; simp only [List.length_cons]; omega
  · cases h

theorem parseEscape_length (cs rest : List Char) (d : Char)
    (h : parseEscape cs = some (d, rest)) : rest.length < cs.length := by
  cases cs with
  | nil => rw [parseEscape.eq_def] at h; cases h
  | cons e r =>
    rw [parseEscape.eq_def] at h
    simp only at h
    simp only [List.length_cons]
    by_cases h1 : e = dquote
    · rw [if_pos h1] at h; cases h; omega
    rw [if_neg h1] at h
    by_cases h2 : e = bslash
    · rw [if_pos h2] at h; cases h; omega
    rw [if_neg h2] at h
    by_cases h3 : e = '/'
    · rw [if_pos h3] at h; cases h; omega
    rw [if_neg h3] at h
    by_cases h4 : e = 'b'
    · rw [if_pos h4] at h; cases h; omega
    rw [if_neg h4] at h
    by_cases h5 : e = 'f'
    · rw [if_pos h5] at h; cases h; omega
    rw [if_neg h5] at h
    by_cases h6 : e = 'n'
    · rw [if_pos h6] at h; cases h; omega
    rw [if_neg h6] at h
    by_cases h7 : e = 'r'
    · rw [if_pos h7] at h; cases h; omega
    rw [if_neg h7] at h
    by_cases h8 : e = 't'
    · rw [if_pos h8] at h; cases h; omega
    rw [if_neg h8] at h
    by_cases h9 : e = 'u'
    · rw [if_pos h9] at h
      have := parseEscape_u_length r rest d h
      omega
    · rw [if_neg h9] at h; cases h

/-- Fuel beyond the length of the input does not change what `parseChars`
returns, and what it returns is shorter than the input. -/
theorem parseChars_fuel (f : Nat) : ∀ (cs acc : List Char) (res : List Char × List Char)
    (g : Nat), parseChars f cs acc = some res → cs.length < g →
    parseChars g cs acc = some res ∧ res.2.length < cs.length := by
  induction f with
  | zero => intro cs acc res g h; simp [parseChars] at h
  | succ f ih =>
    intro cs acc res g h hg
    cases g with
    | zero => omega
    | succ g =>
      cases cs with
      | nil => simp [parseChars] at h
      | cons c cs =>
        rw [parseChars.eq_def] at h ⊢
        simp only at h ⊢
        simp only [List.length_cons] at hg ⊢
        by_cases h1 : c = dquote
        · rw [if_pos h1] at h ⊢
          cases h
          exact ⟨rfl, by simp⟩
        · rw [if_neg h1] at h ⊢
          by_cases h2 : c = bslash
          · rw [if_pos h2] at h ⊢
            cases he : parseEscape cs with
            | none => rw [he] at h; cases h
            | some p =>
              obtain ⟨d, rest⟩ := p
              rw [he] at h
              dsimp only at h ⊢
              have hl := parseEscape_length cs rest d he
              obtain ⟨ha, hb⟩ := ih rest (d :: acc) res g h (by omega)
              exact ⟨ha, by omega⟩
          · rw [if_neg h2] at h ⊢
            by_cases h3 : c.toNat < 32
            · rw [if_pos h3] at h; cases h
            · rw [if_neg h3] at h ⊢
              obtain ⟨ha, hb⟩ := ih cs (c :: acc) res g h (by omega)
              exact ⟨ha, by omega⟩

/-- The fuel that `parseString` gives to `parseChars` is never exhausted:
whatever `parseChars` returns with some fuel, `parseString` returns. -/
theorem parseString_complete (f : Nat) (cs s r : List Char)
    (h : parseChars f cs [] = some (s, r)) : parseString cs = some (String.mk s, r) := by
  unfold parseString
  rw [(parseChars_fuel f cs [] (s, r) (cs.length + 1) h (by omega)).1]

theorem parseString_length (cs r : List Char) (s : String)
    (h : parseString cs = some (s, r)) : r.length < cs.length := by
  unfold parseString at h
  split at h
  · rename_i s1 r1 hp
    cases h
    exact (parseChars_fuel _ cs [] (s1, r) _ hp (Nat.lt_succ_self _)).2
  · cases h

theorem parseScalar_length (c : Char) (rest r : List Char) (v : JSValue)
    (h : parseScalar c rest = some (v, r)) : r.length ≤ rest.length := by
  unfold parseScalar at h
  split_ifs at h
  · split at h
    · rename_i s r1 hp
      cases h
      have := parseString_length _ _ _ hp
      have := skipWS_length r1
      omega
    · cases h
  · split at h
    · rename_i r1 hp
      cases h
      have := dropLiteral_length _ _ _ hp
      have := skipWS_length r1
      omega
    · cases h
  · split at h
    · rename_i r1 hp
      cases h
      have := dropLiteral_length _ _ _ hp
      have := skipWS_length r1
      omega
    · cases h
  · split at h
    · rename_i r1 hp
      cases h
      have := dropLiteral_length _ _ _ hp
      have := skipWS_length r1
      omega
    · cases h
  · split at h
    · rename_i l r1 hp
      cases h
      have := parseNumber_length _ _ _ hp
      have := skipWS_length r1
      simp only [List.length_cons] at *
      omega
    · cases h

/-- Fuel beyond twice the length of the input does not change what the
parser returns, and what it returns is shorter than the input. -/
theorem parse_fuel (f : Nat) :
    (∀ (cs : List Char) (res : JSValue × List Char) (g : Nat),
      parseValue f cs = some res → 2 * cs.length + 2 ≤ g →
      parseValue g cs = some res ∧ res.2.length < cs.length) ∧
    (∀ (cs : List Char) (acc : List JSValue) (res : List JSValue × List Char) (g : Nat),
      parseElements f cs acc = some res → 2 * cs.length + 3 ≤ g →
      parseElements g cs acc = some res ∧ res.2.length < cs.length) ∧
    (∀ (cs : List Char) (acc : List (String × JSValue))
      (res : List (String × JSValue) × List Char) (g : Nat),
      parseMembers f cs acc = some res → 2 * cs.length + 3 ≤ g →
      parseMembers g cs acc = some res ∧ res.2.length < cs.length) := by
  induction f with
  | zero =>
    refine ⟨?_, ?_, ?_⟩
    · intro cs res g h; rw [parseValue.eq_def] at h; cases h
    · intro cs acc res g h; rw [parseElements.eq_def] at h; cases h
    · intro cs acc res g h; rw [parseMembers.eq_def] at h; cases h
  | succ f ih =>
    obtain ⟨ihV, ihE, ihM⟩ := ih
    refine ⟨?_, ?_, ?_⟩
    · intro cs res g h hg
      obtain ⟨g, rfl⟩ : ∃ g1, g = g1 + 1 := ⟨g - 1, by omega⟩
      rw [parseValue.eq_def] at h ⊢
      simp only at h ⊢
      have hws := skipWS_length cs
      cases hs : skipWS cs with
      | nil => rw [hs] at h; cases h
      | cons c rest =>
        rw [hs] at h hws
        simp only [List.length_cons] at hws
        simp only at h ⊢
        by_cases h1 : c = lbrace
        · rw [if_pos h1] at h ⊢
          have hws1 := skipWS_length rest
          cases hs1 : skipWS rest with
          | nil => rw [hs1] at h; cases h
          | cons c1 rest1 =>
            rw [hs1] at h hws1
            simp only [List.length_cons] at hws1
            simp only at h ⊢
            by_cases h2 : c1 = rbrace
            · rw [if_pos h2] at h ⊢
              cases h
              have := skipWS_length rest1
              exact ⟨rfl, by simp only; omega⟩
            · rw [if_neg h2] at h ⊢
              cases hm : parseMembers f (c1 :: rest1) [] with
              | none => rw [hm] at h; cases h
              | some p =>
                obtain ⟨ps, r⟩ := p
                rw [hm] at h
                simp only at h
                cases h
                obtain ⟨ha, hb⟩ := ihM (c1 :: rest1) [] (ps, r) g hm
                  (by simp only [List.length_cons]; omega)
                rw [ha]
                have := skipWS_length r
                simp only [List.length_cons] at hb
                exact ⟨rfl, by simp only; omega⟩
        · rw [if_neg h1] at h ⊢
          by_cases h3 : c = '['
          · rw [if_pos h3] at h ⊢
            have hws1 := skipWS_length rest
            cases hs1 : skipWS rest with
            | nil => rw [hs1] at h; cases h
            | cons c1 rest1 =>
              rw [hs1] at h hws1
              simp only [List.length_cons] at hws1
              simp only at h ⊢
              by_cases h2 : c1 = ']'
              · rw [if_pos h2] at h ⊢
                cases h
                have := skipWS_length rest1
                exact ⟨rfl, by simp only; omega⟩
              · rw [if_neg h2] at h ⊢
                cases hm : parseElements f (c1 :: rest1) [] with
                | none => rw [hm] at h; cases h
                | some p =>
                  obtain ⟨xs, r⟩ := p
                  rw [hm] at h
                  simp only at h
                  cases h
                  obtain ⟨ha, hb⟩ := ihE (c1 :: rest1) [] (xs, r) g hm
                    (by simp only [List.length_cons]; omega)
                  rw [ha]
                  have := skipWS_length r
                  simp only [List.length_cons] at hb
                  exact ⟨rfl, by simp only; omega⟩
          · rw [if_neg h3] at h ⊢
            obtain ⟨v, r⟩ := res
            have := parseScalar_length c rest r v h
            exact ⟨h, by simp only; omega⟩
    · intro cs acc res g h hg
      obtain ⟨g, rfl⟩ : ∃ g1, g = g1 + 1 := ⟨g - 1, by omega⟩
      rw [parseElements.eq_def] at h ⊢
      simp only at h ⊢
      cases hv : parseValue f cs with
      | none => rw [hv] at h; cases h
      | some p =>
        obtain ⟨v, r⟩ := p
        rw [hv] at h
        obtain ⟨ha, hb⟩ := ihV cs (v, r) g hv (by omega)
        rw [ha]
        simp only at h hb ⊢
        cases r with
        | nil => cases h
        | cons c r1 =>
          simp only [List.length_cons] at hb
          simp only at h ⊢
          by_cases h1 : c = ','
          · rw [if_pos h1] at h ⊢
            obtain ⟨hc, hd⟩ := ihE r1 (acc ++ [v]) res g h (by omega)
            exact ⟨hc, by omega⟩
          · rw [if_neg h1] at h ⊢
            by_cases h2 : c = ']'
            · rw [if_pos h2] at h ⊢
              cases h
              exact ⟨rfl, by simp only; omega⟩
            · rw [if_neg h2] at h; cases h
    · intro cs acc res g h hg
      obtain ⟨g, rfl⟩ : ∃ g1, g = g1 + 1 := ⟨g - 1, by omega⟩
      rw [parseMembers.eq_def] at h ⊢
      simp only at h ⊢
      have hws := skipWS_length cs
      cases hs : skipWS cs with
      | nil => rw [hs] at h; cases h
      | cons q r0 =>
        rw [hs] at h hws
        simp only [List.length_cons] at hws
        simp only at h ⊢
        by_cases h1 : q = dquote
        · rw [if_pos h1] at h ⊢
          cases hk : parseString r0 with
          | none => rw [hk] at h; cases h
          | some p =>
            obtain ⟨k, r1⟩ := p
            rw [hk] at h
            have hkl := parseString_length r0 r1 k hk
            simp only at h ⊢
            have hws1 := skipWS_length r1
            cases hs1 : skipWS r1 with
            | nil => rw [hs1] at h; cases h
            | cons c r2 =>
              rw [hs1] at h hws1
              simp only [List.length_cons] at hws1
              simp only at h ⊢
              by_cases h2 : c = ':'
              · rw [if_pos h2] at h ⊢
                cases hv : parseValue f r2 with
                | none => rw [hv] at h; cases h
                | some p =>
                  obtain ⟨v, r3⟩ := p
                  rw [hv] at h
                  obtain ⟨ha, hb⟩ := ihV r2 (v, r3) g hv (by omega)
                  rw [ha]
                  simp only at h hb ⊢
                  cases r3 with
                  | nil => cases h
                  | cons d r4 =>
                    simp only [List.length_cons] at hb
                    simp only at h ⊢
                    by_cases h3 : d = ','
                    · rw [if_pos h3] at h ⊢
                      obtain ⟨hc, hd⟩ := ihM r4 (setProp k v acc) res g h (by omega)
                      exact ⟨hc, by omega⟩
                    · rw [if_neg h3] at h ⊢
                      by_cases h4 : d = rbrace
                      · rw [if_pos h4] at h ⊢
                        cases h
                        exact ⟨rfl, by simp only; omega⟩
                      · rw [if_neg h4] at h; cases h
              · rw [if_neg h2] at h; cases h
        · rw [if_neg h1] at h; cases h

/-- The fuel that `JSONparse` gives to the parser is never exhausted: a text
that the parser accepts with some amount of fuel is accepted by
`JSONparse`, with the same value. -/
theorem JSONparse_complete (text : String) (fuel : Nat) (v : JSValue)
    (h : parseValue fuel text.data = some (v, [])) : JSONparse text = .ok v := by
  unfold JSONparse
  rw [((parse_fuel fuel).1 text.data (v, []) _ h (le_refl _)).1]

/-! ## Save and load -/

/-- C2, as stated, fails: a task made by `addTask` holds a `Date` object,
and what is loaded back holds the ISO string of that date instead, so the
loaded list is not the saved list. -/
theorem save_load_counterexample :
    oneTaskState.tasks =
        [{ id := "1", text := "X", completed := false, priority := "low",
           date := .object 1 }] ∧
      loadTasksFromLocalStorage (saveTasksToLocalStorage oneTaskState).storedTasks (.arr []) =
        .ok (.arr [.obj [("id", .str "1"), ("text", .str "X"), ("completed", .bool false),
          ("priority", .str "low"), ("date", .str "1970-01-01T00:00:00.001Z")]]) ∧
      loadTasksFromLocalStorage (saveTasksToLocalStorage oneTaskState).storedTasks (.arr []) ≠
        .ok (tasksToJS oneTaskState.tasks) := by
  refine ⟨by decide, rfl, ?_⟩
  intro h
  have h2 : loadTasksFromLocalStorage (saveTasksToLocalStorage oneTaskState).storedTasks
      (.arr []) =
        .ok (.arr [.obj [("id", .str "1"), ("text", .str "X"), ("completed", .bool false),
          ("priority", .str "low"), ("date", .str "1970-01-01T00:00:00.001Z")]]) := rfl
  rw [h2] at h
  have h3 : tasksToJS oneTaskState.tasks =
      .arr [.obj [("id", .str "1"), ("text", .str "X"), ("completed", .bool false),
          ("priority", .str "low"), ("date", .date 1)]] := rfl
  rw [h3] at h
  simp at h

/-- C2 (amended): loading what `saveTasksToLocalStorage` wrote yields the
list of the reloaded tasks; a reloaded task has the same `id`, `text`,
`completed` and `priority`, and its `date` is the ISO string of the `Date`
object, or the same string when the date already was a string; a list whose
dates are all strings is loaded back unchanged. -/
theorem save_load_roundtrip (st : AppState) (prev : JSValue) :
    loadTasksFromLocalStorage (saveTasksToLocalStorage st).storedTasks prev =
        .ok (tasksToJS (st.tasks.map Task.reloaded)) ∧
      (∀ t : Task, t.reloaded.id = t.id ∧ t.reloaded.text = t.text ∧
        t.reloaded.completed = t.completed ∧ t.reloaded.priority = t.priority ∧
        t.reloaded.date =
          match t.date with
          | .object ms => .string (toISOString ms)
          | .string s => .string s) ∧
      ((∀ t ∈ st.tasks, ∃ s, t.date = .string s) →
        loadTasksFromLocalStorage (saveTasksToLocalStorage st).storedTasks prev =
          .ok (tasksToJS st.tasks)) := by
  have hload : loadTasksFromLocalStorage (saveTasksToLocalStorage st).storedTasks prev =
      .ok (tasksToJS (st.tasks.map Task.reloaded)) := by
    show (if JSONstringify (tasksToJS st.tasks) = "" then .ok prev
      else JSONparse (JSONstringify (tasksToJS st.tasks))) = _
    rw [if_neg (JSONstringify_tasks_ne_empty _), JSONparse_stringify_tasks]
  refine ⟨hload, ?_, ?_⟩
  · intro t
    refine ⟨rfl, rfl, rfl, rfl, ?_⟩
    cases h : t.date <;> simp [Task.reloaded, DateValue.reloaded, h]
  · intro hs
    rw [hload]
    have hmap : st.tasks.map Task.reloaded = st.tasks := by
      conv_rhs => rw [← List.map_id st.tasks]
      apply List.map_congr_left
      intro t ht
      obtain ⟨s, hts⟩ := hs t ht
      cases t with
      | mk i x c p d =>
        simp only at hts
        subst hts
        rfl
    rw [hmap]

theorem save_load_roundtrip_witness :
    (∀ t ∈ reloadedState.tasks, ∃ s, t.date = .string s) ∧
      loadTasksFromLocalStorage (saveTasksToLocalStorage reloadedState).storedTasks (.arr []) =
        .ok (tasksToJS reloadedState.tasks) :=
  ⟨by simp [reloadedState],
    (save_load_roundtrip reloadedState (.arr [])).2.2 (by simp [reloadedState])⟩

/-! ## Corrupt stored data -/

/-- A value on which `renderTasks` does not throw is an array without
`null`, so `updateTasksCounter` does not throw on it either. -/
theorem updateTasksCounterThrows_of_render (tasks : JSValue)
    (h : renderTasksThrows tasks = false) : updateTasksCounterThrows tasks = false := by
  cases tasks with
  | arr items =>
    simp only [renderTasksThrows, updateTasksCounterThrows] at h ⊢
    rw [List.any_eq_false] at h ⊢
    intro task ht
    have := h task ht
    cases task <;> simp_all [createTaskElementThrows]
  | _ => simp [renderTasksThrows] at h

/-- C4, as stated, fails: with a stored text that is cut off, `JSON.parse`
throws a `SyntaxError` that leaves `initApp`: nothing is rendered and no
listener is installed, instead of a start with an empty list. -/
theorem corrupt_load_counterexample :
    truncatedText.data.length = 10 ∧
      JSONparse truncatedText = .error .syntaxError ∧
      loadTasksFromLocalStorage (some truncatedText) (.arr []) = .error .syntaxError ∧
      (initApp (some truncatedText)).uncaught = some (.inLoad .syntaxError) ∧
      (initApp (some truncatedText)).rendered = false ∧
      (initApp (some truncatedText)).listenersInstalled = false := by
  refine ⟨rfl, rfl, rfl, rfl, rfl, rfl⟩

/-- C4 (amended): what `initApp` does with a stored text.  An empty text is
not parsed and the list stays empty.  A text that `JSON.parse` rejects ends
`initApp` with the `SyntaxError`: the list is still empty, nothing is
rendered, no listener is installed.  A text that parses to a value on which
`renderTasks` throws ends `initApp` there, with that value in `tasks`.  Any
other text makes the parsed value the task list as it is.  So a start-up
that completes with an empty list had an empty text or the empty array, and
a corrupt text is never replaced by the empty list. -/
theorem corrupt_load_outcome (text : String) :
    (text = "" → initApp (some text) =
        { tasks := .arr [], rendered := true, counterUpdated := true,
          listenersInstalled := true, uncaught := none }) ∧
      (text ≠ "" → JSONparse text = .error .syntaxError → initApp (some text) =
        { tasks := .arr [], rendered := false, counterUpdated := false,
          listenersInstalled := false, uncaught := some (.inLoad .syntaxError) }) ∧
      (∀ v, text ≠ "" → JSONparse text = .ok v → renderTasksThrows v = true →
        initApp (some text) =
          { tasks := v, rendered := false, counterUpdated := false,
            listenersInstalled := false, uncaught := some .inRender }) ∧
      (∀ v, text ≠ "" → JSONparse text = .ok v → renderTasksThrows v = false →
        initApp (some text) =
          { tasks := v, rendered := true, counterUpdated := true,
            listenersInstalled := true, uncaught := none }) ∧
      ((initApp (some text)).listenersInstalled = true →
        (initApp (some text)).tasks = .arr [] →
        text = "" ∨ JSONparse text = .ok (.arr [])) := by
  have hload : text ≠ "" →
      loadTasksFromLocalStorage (some text) (.arr []) = JSONparse text := by
    intro hne
    show (if text = "" then .ok (.arr []) else JSONparse text) = _
    rw [if_neg hne]
  have hrun : ∀ v, text ≠ "" → JSONparse text = .ok v → renderTasksThrows v = false →
      initApp (some text) =
        { tasks := v, rendered := true, counterUpdated := true,
          listenersInstalled := true, uncaught := none } := by
    intro v hne hv hr
    unfold initApp
    rw [hload hne, hv]
    simp only [hr, updateTasksCounterThrows_of_render v hr]
    rfl
  have hstop : ∀ v, text ≠ "" → JSONparse text = .ok v → renderTasksThrows v = true →
      initApp (some text) =
        { tasks := v, rendered := false, counterUpdated := false,
          listenersInstalled := false, uncaught := some .inRender } := by
    intro v hne hv hr
    unfold initApp
    rw [hload hne, hv]
    simp only [hr]
    rfl
  have hsyn : text ≠ "" → JSONparse text = .error .syntaxError → initApp (some text) =
      { tasks := .arr [], rendered := false, counterUpdated := false,
        listenersInstalled := false, uncaught := some (.inLoad .syntaxError) } := by
    intro hne he
    unfold initApp
    rw [hload hne, he]
  refine ⟨?_, hsyn, hstop, hrun, ?_⟩
  · intro h
    subst h
    rfl
  · intro hl ht
    by_cases hne : text = ""
    · exact Or.inl hne
    · right
      cases hp : JSONparse text with
      | error e =>
        cases e
        rw [hsyn hne hp] at hl
        cases hl
      | ok v =>
        cases hr : renderTasksThrows v with
        | true =>
          rw [hstop v hne hp hr] at hl
          cases hl
        | false =>
          rw [hrun v hne hp hr] at ht
          simp only at ht
          rw [ht]

theorem corrupt_load_outcome_witness :
    (truncatedText ≠ "" ∧ JSONparse truncatedText = .error .syntaxError ∧
        initApp (some truncatedText) =
          { tasks := .arr [], rendered := false, counterUpdated := false,
            listenersInstalled := false, uncaught := some (.inLoad .syntaxError) }) ∧
      ("null" ≠ "" ∧ JSONparse "null" = .ok .null ∧ renderTasksThrows .null = true ∧
        initApp (some "null") =
          { tasks := .null, rendered := false, counterUpdated := false,
            listenersInstalled := false, uncaught := some .inRender }) ∧
      ("[7]" ≠ "" ∧ JSONparse "[7]" = .ok (.arr [.num "7"]) ∧
        renderTasksThrows (.arr [.num "7"]) = false ∧
        initApp (some "[7]") =
          { tasks := .arr [.num "7"], rendered := true, counterUpdated := true,
            listenersInstalled := true, uncaught := none }) :=
  ⟨⟨by decide, rfl, (corrupt_load_outcome truncatedText).2.1 (by decide) rfl⟩,
    ⟨by decide, rfl, rfl, (corrupt_load_outcome "null").2.2.1 .null (by decide) rfl rfl⟩,
    ⟨by decide, rfl, rfl,
      (corrupt_load_outcome "[7]").2.2.2.1 (.arr [.num "7"]) (by decide) rfl rfl⟩⟩


end Todo
